import Mathlib

/-!
# Verification of the LoRa-FullStack host-side transport layer

Shallow embedding, in Lean 4, of the host-side transport code of the
LoRa-FullStack repository:

* `03-LargeData/11-LoRa_RealTime_MultiM/lora_transceiver.py`
  (`MessageReassembler.add_frag`, `FileChunkAssembler.add_chunk`,
  `LoRaSerialSession.send_file`, `LoRaSerialSession._consume_tx_result`,
  `LoRaSerialSession._handle_rx_line`)
* `03-LargeData/11-LoRa_RealTime_MultiM/rx_receive_file.py` (the `main` reader loop)
* `03-FullStack_Experiments/14-Mesh_Network/mesh_network_interface.py`
  (`TransmissionStats`, `MeshNetworkInterface.send_fragmented_data`)
* `03-FullStack_Experiments/14-Mesh_Network/mesh_receiver.py`
  (`MeshReceiver.handle_file` output-name derivation)

Python `bytes` are embedded as `List Nat` (each element `< 256`); Python `str`
as Lean `String`/`List Char`; Python `int` as `Int`; Python `float` values that
the claims depend on (timestamps, ratios) as `ℚ`.  Python dictionaries whose
length is observed are embedded as association lists; the outer pending maps,
whose length is never observed, as functions into `Option`.
-/

namespace LoRaFS

/-! ## Base64 (Python `base64.b64encode` / `base64.b64decode`)

`b64encode` follows RFC 4648: groups of three bytes become four alphabet
characters; a final group of one byte becomes two characters plus `==`, a
final group of two bytes becomes three characters plus `=`.  `b64decode`
models `base64.b64decode(s)` (default `validate=False`): characters outside
the alphabet and `'='` are discarded, then the remaining text must consist of
whole quads, with padding allowed only in the final quad; no check is made
that unused trailing bits are zero (CPython does not check them either). -/

def b64alphabet : List Char :=
  [ 'A', 'B', 'C', 'D', 'E', 'F', 'G', 'H', 'I', 'J', 'K', 'L', 'M',
    'N', 'O', 'P', 'Q', 'R', 'S', 'T', 'U', 'V', 'W', 'X', 'Y', 'Z',
    'a', 'b', 'c', 'd', 'e', 'f', 'g', 'h', 'i', 'j', 'k', 'l', 'm',
    'n', 'o', 'p', 'q', 'r', 's', 't', 'u', 'v', 'w', 'x', 'y', 'z',
    '0', '1', '2', '3', '4', '5', '6', '7', '8', '9', '+', '/' ]

/-- The alphabet character for a 6-bit value. -/
def b64char (n : Nat) : Char := b64alphabet.getD n '?'

/-- Index of a character in the base64 alphabet (`none` if absent). -/
def b64index (c : Char) : Option Nat := b64alphabet.indexOf? c

/-- Is `c` a base64 alphabet character or the padding character? -/
def isB64OrPad (c : Char) : Bool := (b64alphabet.contains c) || c = '='

/-- Encode a byte list, three bytes at a time, into base64 characters. -/
def b64encodeList : List Nat → List Char
  | [] => []
  | [a] =>
      [b64char (a / 4), b64char (a % 4 * 16), '=', '=']
  | [a, b] =>
      [b64char (a / 4), b64char (a % 4 * 16 + b / 16), b64char (b % 16 * 4), '=']
  | a :: b :: c :: rest =>
      b64char (a / 4) :: b64char (a % 4 * 16 + b / 16) ::
      b64char (b % 16 * 4 + c / 64) :: b64char (c % 64) :: b64encodeList rest

/-- Python `base64.b64encode(P).decode("ascii")` as a string. -/
def b64encode (bs : List Nat) : String := String.mk (b64encodeList bs)

/-- Decode whole quads of (already filtered) base64 characters.  Padding is
accepted only at the end of the text. -/
def b64decodeCore : List Char → Option (List Nat)
  | [] => some []
  | c1 :: c2 :: c3 :: c4 :: rest =>
      if c3 = '=' ∧ c4 = '=' ∧ rest = [] then
        match b64index c1, b64index c2 with
        | some w1, some w2 => some [w1 * 4 + w2 / 16]
        | _, _ => none
      else if c4 = '=' ∧ rest = [] then
        match b64index c1, b64index c2, b64index c3 with
        | some w1, some w2, some w3 =>
            some [w1 * 4 + w2 / 16, w2 % 16 * 16 + w3 / 4]
        | _, _, _ => none
      else
        match b64index c1, b64index c2, b64index c3, b64index c4 with
        | some w1, some w2, some w3, some w4 =>
            (b64decodeCore rest).map
              (fun tail =>
                (w1 * 4 + w2 / 16) :: (w2 % 16 * 16 + w3 / 4) ::
                (w3 % 4 * 64 + w4) :: tail)
        | _, _, _, _ => none
  | _ => none

/-- Python `base64.b64decode(s)`: discard foreign characters, then decode;
`none` models the `binascii.Error` exception. -/
def b64decode (s : String) : Option (List Nat) :=
  b64decodeCore (s.data.filter isB64OrPad)

/-! ## Chunking (Python `[b64[i:i+S] for i in range(0, len(b64), S)]`)

`LoRaSerialSession.send_file` splits the base64 text into consecutive
`chunk_size_chars`-character slices; `range(0, len, S)` enumerates the slice
starts, so there are `⌈len / S⌉` slices (`S ≥ 1`; with `S ≤ 0` the Python
`range` call raises). -/

def chunkList (s : List Char) (n : Nat) : List (List Char) :=
  (List.range ((s.length + n - 1) / n)).map (fun i => (s.drop (i * n)).take n)

/-- The slices of `send_file`, as strings. -/
def sendChunks (b64 : String) (n : Nat) : List String :=
  (chunkList b64.data n).map String.mk

/-! ## Python `dict` with observed length

The inner `chunks` dictionaries (`{idx: str}`) are embedded as association
lists: `len(d)` is the list length, `d[k] = v` replaces in place when the key
exists and appends otherwise (insertion order preserved, as in CPython), and
`d[k]` is `find?`. -/

def dictKeys (l : List (Int × String)) : List Int := l.map Prod.fst

def dictInsert (l : List (Int × String)) (k : Int) (v : String) : List (Int × String) :=
  if l.any (fun p => p.1 = k) then
    l.map (fun p => if p.1 = k then (k, v) else p)
  else l ++ [(k, v)]

def dictLookup (l : List (Int × String)) (k : Int) : Option String :=
  (l.find? (fun p => p.1 = k)).map Prod.snd

/-! ## Pending-assembly entries

`MessageReassembler.add_frag` (lora_transceiver.py lines 72–85, identical in
rx_receive_file.py lines 40–53) and `FileChunkAssembler.add_chunk`
(lora_transceiver.py lines 95–127, rx_receive_file.py lines 67–93) keep one
pending map each, with entries `{"tot": int, "chunks": {idx: str}}` and the
same update-and-complete step; `pendingAdd` embeds that shared step once,
parameterized by the key type ( `(src, seq)` for fragments, the filename for
file chunks ).  Python raising `KeyError` while building `ordered` (an index
in `range(tot)` absent from `chunks`) is the `keyError` result, in which case
the `del` statement is never reached and the entry stays. -/

structure PEntry where
  tot : Int
  chunks : List (Int × String)
  deriving DecidableEq

inductive FragResult
  | pending
  | completed (payload : String)
  | keyError
  deriving DecidableEq

/-- The list `[msg["chunks"][i] for i in range(msg["tot"])]`; `none` is a `KeyError`. -/
def orderedChunks (chunks : List (Int × String)) (tot : Int) : Option (List String) :=
  (List.range tot.toNat).mapM (fun i => dictLookup chunks (Int.ofNat i))

def pendingAdd {K : Type} [DecidableEq K] (m : K → Option PEntry) (key : K)
    (idx tot : Int) (chunk : String) : (K → Option PEntry) × FragResult :=
  let e0 := (m key).getD ⟨tot, []⟩
  let e : PEntry := ⟨tot, dictInsert e0.chunks idx chunk⟩
  if (e.chunks.length : Int) = e.tot then
    match orderedChunks e.chunks e.tot with
    | some parts => (Function.update m key none, .completed (String.join parts))
    | none => (Function.update m key (some e), .keyError)
  else (Function.update m key (some e), .pending)

/-- State of `MessageReassembler`: the pending map keyed by `(src, seq)`. -/
abbrev FragKey := String × Int

abbrev ReasmState := FragKey → Option PEntry

def emptyReasm : ReasmState := fun _ => none

/-- Models `MessageReassembler.add_frag`. -/
def addFrag (st : ReasmState) (src : String) (seq idx tot : Int) (chunk : String) :
    ReasmState × FragResult :=
  pendingAdd st (src, seq) idx tot chunk

/-! ## Output file naming (`pathlib.Path.stem` / `.suffix`)

`Path(name).suffix` is `name[i:]` when `i = name.rfind('.')` satisfies
`0 < i < len(name) - 1`, else `""`; `stem` is the matching remainder.  (The
transceiver passes plain filenames, so `name` is the whole path's last
component.) -/

def rfindDot (cs : List Char) : Option Nat :=
  (cs.reverse.findIdx? (fun c => c = '.')).map (fun j => cs.length - 1 - j)

def pathStem (name : String) : String :=
  match rfindDot name.data with
  | some i =>
      if 0 < i ∧ i < name.data.length - 1 then String.mk (name.data.take i) else name
  | none => name

def pathSuffix (name : String) : String :=
  match rfindDot name.data with
  | some i =>
      if 0 < i ∧ i < name.data.length - 1 then String.mk (name.data.drop i) else ""
  | none => ""

/-- Python `s.startswith(pre)`, computed on the character lists (Lean's
`String.startsWith` goes through byte positions, which the kernel cannot
evaluate). -/
def pyStartsWith (s pre : String) : Bool := pre.data.isPrefixOf s.data

/-- The name `f"{p.stem}_rx{p.suffix}"`: the fixed receiver-suffixed output name used by
`FileChunkAssembler.add_chunk` (and the legacy `FILE:` path). -/
def stampedName (fname : String) : String :=
  pathStem fname ++ "_rx" ++ pathSuffix fname

/-- Python `Path(fname).stem.startswith("_tmp_text_to_send")`: the typed-text-as-file
convention. -/
def isTmpTextName (fname : String) : Bool :=
  pyStartsWith (pathStem fname) "_tmp_text_to_send"

/-! ## `FileChunkAssembler` (lora_transceiver.py lines 88–127)

State: the pending map keyed by transmitted filename.  Observable effects are
returned as an event list: the per-chunk progress print, the decode-failure
print, the `out_path.write_bytes(raw)` call (with the name it writes under),
and the typed-text print (whose payload we record as the raw bytes; the source
shows them UTF-8-decoded with errors ignored). -/

abbrev AsmState := String → Option PEntry

def emptyAsm : AsmState := fun _ => none

inductive FileEvent
  | gotChunk (fname : String) (idx tot : Int)
  | decodeFailed (fname : String)
  | wroteFile (name : String) (bytes : List Nat)
  | rxTextShown (bytes : List Nat)
  | chunkKeyError (fname : String)
  deriving DecidableEq

/-- Models `FileChunkAssembler.add_chunk`. -/
def addChunk (st : AsmState) (fname : String) (idx tot : Int) (chunk : String) :
    AsmState × List FileEvent :=
  match pendingAdd st fname idx tot chunk with
  | (st2, .pending) => (st2, [.gotChunk fname idx tot])
  | (st2, .keyError) => (st2, [.gotChunk fname idx tot, .chunkKeyError fname])
  | (st2, .completed fullB64) =>
      match b64decode fullB64 with
      | none => (st2, [.gotChunk fname idx tot, .decodeFailed fname])
      | some raw =>
          if isTmpTextName fname then
            (st2, [.gotChunk fname idx tot, .wroteFile (stampedName fname) raw,
                   .rxTextShown raw])
          else
            (st2, [.gotChunk fname idx tot, .wroteFile (stampedName fname) raw])

/-! ## Delivering a sequence of fragments

`deliverPending` folds the shared `add_frag`/`add_chunk` step over a delivery
order for one fixed key: fragment `i` carries text `f i`.  Instantiated at
key `(src, seq)` it is the fold of `MessageReassembler.add_frag`; at a
filename key it is the fold of the pending-map step of
`FileChunkAssembler.add_chunk`. -/

def deliverPending {K : Type} [DecidableEq K] (key : K) (tot : Int) (f : Nat → String) :
    (K → Option PEntry) → List Nat → (K → Option PEntry) × List FragResult
  | m, [] => (m, [])
  | m, i :: rest =>
      ((deliverPending key tot f (pendingAdd m key (i : Int) tot (f i)).1 rest).1,
       (pendingAdd m key (i : Int) tot (f i)).2 ::
         (deliverPending key tot f (pendingAdd m key (i : Int) tot (f i)).1 rest).2)

/-- Instantiating `deliverPending` at the fragment key gives exactly the fold of `add_frag`. -/
def deliverFrags (src : String) (seq tot : Int) (f : Nat → String) :
    ReasmState → List Nat → ReasmState × List FragResult :=
  deliverPending (src, seq) tot f

/-- The entry for a key after the fragments listed in `done` (pairwise
distinct) have been delivered: `tot` is the transfer total, the chunk keys
are exactly `done` in delivery order, and each stored text is the delivered
one. `none` is allowed only before any delivery. -/
def entryOK (total : Nat) (f : Nat → String) (done : List Nat) : Option PEntry → Prop
  | none => done = []
  | some e => e.tot = (total : Int) ∧
      dictKeys e.chunks = done.map (fun (n : Nat) => (n : Int)) ∧
      (∀ j ∈ done, dictLookup e.chunks (j : Int) = some (f j))

/-! ## Outbound FILECHUNK session (`LoRaSerialSession`, lora_transceiver.py)

`send_file` writes one `FILECHUNK` line per chunk, then blocks in
`_consume_tx_result` until the reader thread signals a sentinel or the
per-chunk timeout elapses.  What the wait observes for chunk `idx` is
abstracted as `events idx`. -/

structure TxResult where
  ok : Bool
  reason : String
  deriving DecidableEq

inductive ChunkEvent
  | txDone              -- reader saw a line containing "[TX DONE]"
  | txFail (line : String)  -- reader saw "[ABORT]" or "TX FAILED" (reason is the line)
  | timeout             -- `_tx_event.wait` timed out
  deriving DecidableEq

/-- Models `_consume_tx_result` (lines 316–324): the `TxResult` handed to the sender. -/
def consumeTxResult : ChunkEvent → TxResult
  | .txDone => ⟨true, "TX DONE"⟩
  | .txFail line => ⟨false, line⟩
  | .timeout => ⟨false, "timeout waiting for [TX DONE]"⟩

/-- The `for idx, chunk in enumerate(chunks)` loop of `send_file`
(lines 391–403): `n` chunks remain starting at `idx`; each iteration writes
its chunk and waits.  Returns the overall result and how many chunks were
written from this point on (a chunk that fails or times out was still
written before the wait). -/
def sendFileGo (events : Nat → ChunkEvent) : Nat → Nat → Bool × Nat
  | _, 0 => (true, 0)
  | idx, n + 1 =>
      if (consumeTxResult (events idx)).ok then
        ((sendFileGo events (idx + 1) n).1, (sendFileGo events (idx + 1) n).2 + 1)
      else (false, 1)

/-- The chunk loop of `send_file` over `total` chunks: overall success flag and
number of `FILECHUNK` lines written. -/
def sendFileRun (events : Nat → ChunkEvent) (total : Nat) : Bool × Nat :=
  sendFileGo events 0 total

/-! ## `TransmissionStats` (mesh_network_interface.py lines 87–113)

Python floats are modeled as exact rationals; `time.time()` is the explicit
argument `now` (used when `end_time` is still `0`). -/

structure TransmissionStats where
  total_chunks : Nat
  sent_chunks : Nat
  failed_chunks : Nat
  start_time : ℚ
  end_time : ℚ
  total_bytes : Nat
  deriving DecidableEq

def TransmissionStats.success_rate (s : TransmissionStats) : ℚ :=
  if s.total_chunks = 0 then 0 else ((s.sent_chunks : ℚ) / (s.total_chunks : ℚ)) * 100

def TransmissionStats.duration (s : TransmissionStats) (now : ℚ) : ℚ :=
  if s.end_time = 0 then now - s.start_time else s.end_time - s.start_time

def TransmissionStats.throughput_bps (s : TransmissionStats) (now : ℚ) : ℚ :=
  if s.duration now = 0 then 0 else ((s.total_bytes : ℚ) * 8) / s.duration now

/-! ## Mesh fragmented-text send path
(`MeshNetworkInterface.send_fragmented_data`, mesh_network_interface.py
lines 270–355)

Per chunk, the loop (a) calls `send_command` — whose serial write can raise,
making it return `False`, upon which the loop `continue`s — then (b) waits up
to `CHUNK_SEND_TIMEOUT` for a `"[CMD] Send completed"` or
`"[CMD] Send failed"` / `"[TX] Failed"` line, and (c) runs the backpressure
check `failed_chunks > total_chunks * 0.3`.  A `continue` from (a) skips (c).
On a timeout the code increments `failed_chunks` only when it is still `0`.
The float literal `0.3` is modeled as the rational `3/10`; the nearest
binary64 to `0.3` differs from it by less than `2⁻⁵⁴`, which cannot move an
integer `failed_chunks` across the threshold for any realistic
`total_chunks`. -/

inductive MeshEvent
  | cmdWriteFailed   -- send_command returned False (serial write raised)
  | completedSentinel
  | failedSentinel
  | timeout
  deriving DecidableEq

structure MeshStats where
  sent : Nat
  failed : Nat
  deriving DecidableEq

/-- One loop iteration's statistics update; the `Bool` is whether the
backpressure check is reached (`false` exactly on the `continue` path). -/
def meshStep (st : MeshStats) (ev : MeshEvent) : MeshStats × Bool :=
  match ev with
  | .cmdWriteFailed => (⟨st.sent, st.failed + 1⟩, false)
  | .completedSentinel => (⟨st.sent + 1, st.failed⟩, true)
  | .failedSentinel => (⟨st.sent, st.failed + 1⟩, true)
  | .timeout => (if st.failed = 0 then ⟨st.sent, st.failed + 1⟩ else st, true)

/-- The check `failed_chunks > total_chunks * 0.3`, cleared of denominators so that it
is kernel-computable; `meshAbort_iff` identifies it with the rational
comparison the Python expression denotes. -/
def meshAbort (failed total : Nat) : Bool :=
  decide (10 * failed > 3 * total)

/-- The chunk loop: `remaining` chunks left to attempt starting at `idx`
(the Python `for idx, chunk in enumerate(chunks)` runs `total` iterations
from 0).  Returns the value of `send_fragmented_data` (True iff
`failed_chunks == 0` at the end, False on abort) and the total number of
chunks attempted (commands issued). -/
def meshGo (events : Nat → MeshEvent) (total : Nat) :
    Nat → Nat → MeshStats → Bool × Nat
  | 0, idx, st => (st.failed == 0, idx)
  | remaining + 1, idx, st =>
      if (meshStep st (events idx)).2 &&
          meshAbort (meshStep st (events idx)).1.failed total then
        (false, idx + 1)
      else meshGo events total remaining (idx + 1) (meshStep st (events idx)).1

def meshRun (events : Nat → MeshEvent) (total : Nat) : Bool × Nat :=
  meshGo events total total 0 ⟨0, 0⟩

/-- The statistics after the first `n` chunks have been processed. -/
def meshStatsAfter (events : Nat → MeshEvent) : Nat → MeshStats
  | 0 => ⟨0, 0⟩
  | n + 1 => (meshStep (meshStatsAfter events n) (events n)).1

/-! ## Python string helpers used by the readers -/

/-- Split off the part of `cs` before the first `sep`, and the remainder. -/
def breakAtChar (sep : Char) : List Char → Option (List Char × List Char)
  | [] => none
  | c :: cs =>
      if c = sep then some ([], cs)
      else
        match breakAtChar sep cs with
        | none => none
        | some (a, b) => some (c :: a, b)

/-- Python `s.split(sep, maxsplit)` (single-character separator, `maxsplit ≥ 0`):
at most `maxsplit` splits, empty parts preserved. -/
def pySplitAux (sep : Char) : Nat → List Char → List (List Char)
  | 0, cs => [cs]
  | n + 1, cs =>
      match breakAtChar sep cs with
      | none => [cs]
      | some (a, b) => a :: pySplitAux sep n b

def pySplit (s : String) (sep : Char) (maxsplit : Nat) : List String :=
  (pySplitAux sep maxsplit s.data).map String.mk

/-- ASCII whitespace stripped by `int(str)`. -/
def isPySpace (c : Char) : Bool :=
  c = ' ' || c = '\t' || c = '\n' || c = '\x0d' || c = '\x0b' || c = '\x0c'

def isPyDigit (c : Char) : Bool := '0' ≤ c && c ≤ '9'

/-- Digits of an integer literal after the sign: nonempty decimal digits,
with single underscores allowed between digits (Python's grammar for
`int(str)`; non-ASCII digit forms are outside the wire alphabet and are not
modeled). -/
def pyDigitsOK : List Char → Bool
  | [] => false
  | [c] => isPyDigit c
  | c :: '_' :: rest => isPyDigit c && pyDigitsOK rest
  | c :: rest => isPyDigit c && pyDigitsOK rest

/-- Numeric value of the digit text, underscores skipped. -/
def pyDigitsVal (cs : List Char) : Nat :=
  cs.foldl (fun acc c => if c = '_' then acc else acc * 10 + (c.toNat - 48)) 0

/-- Python `str.strip()` as applied by `int`. -/
def pyStrip (cs : List Char) : List Char :=
  ((cs.dropWhile isPySpace).reverse.dropWhile isPySpace).reverse

/-- Python `int(s)`: `none` models the `ValueError`. -/
def pyInt? (s : String) : Option Int :=
  match pyStrip s.data with
  | '+' :: ds => if pyDigitsOK ds then some (pyDigitsVal ds : Int) else none
  | '-' :: ds => if pyDigitsOK ds then some (-(pyDigitsVal ds : Int)) else none
  | ds => if pyDigitsOK ds then some (pyDigitsVal ds : Int) else none

/-! ## Payload router and readers

`handle_full_payload` (lora_transceiver.py lines 130–168; rx_receive_file.py
lines 96–143 is identical in its state effects), `_handle_rx_line`
(lora_transceiver.py lines 326–371, with no `try` around it: an uncaught
exception there would kill the reader thread, the `uncaughtError` event), and
the `MSG`/`FRAG` dispatch of `rx_receive_file.main` (lines 169–215, whose
`except Exception` catches and logs everything, the `errorCaught` event). -/

inductive LogEvent
  | msgShown (src seq rssi dm text : String)     -- "[MSG] src=…"
  | warnBadFragInts (line : String)              -- "[WARN] Bad FRAG ints: …"
  | infoFullPayload (src : String) (seq : Int)   -- "[INFO] Full payload …"
  | fileEv (e : FileEvent)                       -- prints from add_chunk
  | warnBadFileChunk (payload : String)          -- "[WARN] FILECHUNK payload format invalid…"
  | infoFileReceived (fname : String)            -- "[INFO] Received FILE …"
  | warnBadFile (payload : String)               -- "[WARN] FILE payload format invalid…"
  | errFileDecode                                -- "[ERROR] Base64 decode failed…" (legacy path)
  | fileWritten (name : String) (bytes : List Nat)  -- legacy `out_path.write_bytes`
  | fullPayloadShown (payload : String)          -- "[FULL PAYLOAD] …"
  | uncaughtError                                -- KeyError escaping add_frag
  deriving DecidableEq

def handleFullPayload (asm : AsmState) (payload : String) : AsmState × List LogEvent :=
  if pyStartsWith payload "FILECHUNK:" then
    match pySplit payload ':' 4 with
    | [_, fname, sIdx, sTot, b64chunk] =>
        match pyInt? sIdx, pyInt? sTot with
        | some idx, some tot =>
            ((addChunk asm fname idx tot b64chunk).1,
             (addChunk asm fname idx tot b64chunk).2.map LogEvent.fileEv)
        | _, _ => (asm, [.warnBadFileChunk payload])
    | _ => (asm, [.warnBadFileChunk payload])
  else if pyStartsWith payload "FILE:" then
    match pySplit payload ':' 2 with
    | [_, fname, b64] =>
        match b64decode b64 with
        | none => (asm, [.infoFileReceived fname, .errFileDecode])
        | some raw =>
            (asm, [.infoFileReceived fname, .fileWritten (stampedName fname) raw])
    | _ => (asm, [.warnBadFile payload])
  else (asm, [.fullPayloadShown payload])

structure SessionState where
  reasm : ReasmState
  fileAsm : AsmState

def initialSession : SessionState := ⟨emptyReasm, emptyAsm⟩

/-- Models `LoRaSerialSession._handle_rx_line`. -/
def handleRxLine (st : SessionState) (line : String) : SessionState × List LogEvent :=
  if pyStartsWith line "MSG," then
    match pySplit line ',' 5 with
    | [_, src, seq, rssi, dm, text] =>
        (⟨st.reasm, (handleFullPayload st.fileAsm text).1⟩,
         .msgShown src seq rssi dm text :: (handleFullPayload st.fileAsm text).2)
    | _ => (st, [])
  else if pyStartsWith line "FRAG," then
    match pySplit line ',' 7 with
    | [_, src, seq, sIdx, sTot, _rssi, _dm, chunk] =>
        match pyInt? seq, pyInt? sIdx, pyInt? sTot with
        | some seqI, some idxI, some totI =>
            match addFrag st.reasm src seqI idxI totI chunk with
            | (re2, FragResult.pending) => (⟨re2, st.fileAsm⟩, [])
            | (re2, FragResult.keyError) => (⟨re2, st.fileAsm⟩, [.uncaughtError])
            | (re2, FragResult.completed full) =>
                (⟨re2, (handleFullPayload st.fileAsm full).1⟩,
                 .infoFullPayload src seqI :: (handleFullPayload st.fileAsm full).2)
        | _, _, _ => (st, [.warnBadFragInts line])
    | _ => (st, [])
  else (st, [])

inductive RxEvent
  | warnBadMsg (line : String)        -- "[WARN] Bad MSG line: …"
  | warnBadFrag (line : String)       -- "[WARN] Bad FRAG line: …"
  | warnBadFragInts (line : String)   -- "[WARN] Non-integer seq/idx/tot in FRAG: …"
  | msgShown (src seq rssi dm text : String)
  | infoFullPayload (src : String) (seq : Int)
  | payloadEv (e : LogEvent)
  | mcuEcho (line : String)
  | errorCaught                       -- outer `except Exception` branch
  deriving DecidableEq

/-- One iteration of `rx_receive_file.main`'s reader loop on a nonempty line. -/
def rxScriptHandleLine (st : SessionState) (line : String) : SessionState × List RxEvent :=
  if pyStartsWith line "MSG," then
    match pySplit line ',' 5 with
    | [_, src, seq, rssi, dm, text] =>
        (⟨st.reasm, (handleFullPayload st.fileAsm text).1⟩,
         .msgShown src seq rssi dm text ::
           (handleFullPayload st.fileAsm text).2.map RxEvent.payloadEv)
    | _ => (st, [.warnBadMsg line])
  else if pyStartsWith line "FRAG," then
    match pySplit line ',' 7 with
    | [_, src, seq, sIdx, sTot, _rssi, _dm, chunk] =>
        match pyInt? seq, pyInt? sIdx, pyInt? sTot with
        | some seqI, some idxI, some totI =>
            match addFrag st.reasm src seqI idxI totI chunk with
            | (re2, FragResult.pending) => (⟨re2, st.fileAsm⟩, [])
            | (re2, FragResult.keyError) => (⟨re2, st.fileAsm⟩, [.errorCaught])
            | (re2, FragResult.completed full) =>
                (⟨re2, (handleFullPayload st.fileAsm full).1⟩,
                 .infoFullPayload src seqI ::
                   (handleFullPayload st.fileAsm full).2.map RxEvent.payloadEv)
        | _, _, _ => (st, [.warnBadFragInts line])
    | _ => (st, [.warnBadFrag line])
  else (st, [.mcuEcho line])

/-- Feed a sequence of lines through `_handle_rx_line`. -/
def runReader (st : SessionState) : List String → SessionState × List LogEvent
  | [] => (st, [])
  | l :: ls =>
      ((runReader (handleRxLine st l).1 ls).1,
       (handleRxLine st l).2 ++ (runReader (handleRxLine st l).1 ls).2)

/-- Feed a sequence of lines through the rx script's loop. -/
def runRxScript (st : SessionState) : List String → SessionState × List RxEvent
  | [] => (st, [])
  | l :: ls =>
      ((runRxScript (rxScriptHandleLine st l).1 ls).1,
       (rxScriptHandleLine st l).2 ++ (runRxScript (rxScriptHandleLine st l).1 ls).2)

/-! ## Mesh receiver output naming (`MeshReceiver.handle_file`,
mesh_receiver.py lines 256–264)

```
output_path = self.output_dir / filename
counter = 1
base_name = output_path.stem
suffix = output_path.suffix
while output_path.exists():
    output_path = self.output_dir / f"{base_name}_{counter}{suffix}"
    counter += 1
```
The files currently in the output directory are the list `existing` (names
relative to the directory).  `decDigits` embeds Python's `str(counter)`.
The Python loop terminates because only finitely many names exist; the model
runs it with fuel `existing.length + 1`, which `uniqueName_not_mem` below
proves sufficient. -/

def decDigits (n : Nat) : List Char :=
  if n < 10 then [Char.ofNat (48 + n)]
  else decDigits (n / 10) ++ [Char.ofNat (48 + n % 10)]
decreasing_by exact Nat.div_lt_self (by omega) (by omega)

def natStr (n : Nat) : String := String.mk (decDigits n)

def uniqueNameAux (existing : List String) (base suffix : String) :
    Nat → Nat → String
  | counter, 0 => base ++ "_" ++ natStr counter ++ suffix
  | counter, fuel + 1 =>
      if (base ++ "_" ++ natStr counter ++ suffix) ∈ existing then
        uniqueNameAux existing base suffix (counter + 1) fuel
      else base ++ "_" ++ natStr counter ++ suffix

/-- The name `handle_file` finally writes under. -/
def uniqueName (existing : List String) (fname : String) : String :=
  if fname ∈ existing then
    uniqueNameAux existing (pathStem fname) (pathSuffix fname) 1 (existing.length + 1)
  else fname

/-- Digit-text evaluation: left inverse of `decDigits`. -/
def decVal (cs : List Char) : Nat :=
  cs.foldl (fun acc c => acc * 10 + (c.toNat - 48)) 0

/-! ## Well-formed reachability of the fragment reassembler

`WFReach` describes states reached from the empty map by deliveries that are
well formed for their key: `0 ≤ idx < tot`, and `tot` matching the pending
entry's total when one exists (the spec's §9 flags mismatched totals as an
unresolved protocol ambiguity; they are exactly what `ReasmInv` fails on). -/

def ReasmInv (st : ReasmState) : Prop :=
  ∀ key e, st key = some e →
    (dictKeys e.chunks).Nodup ∧
    (∀ i ∈ dictKeys e.chunks, 0 ≤ i ∧ i < e.tot) ∧
    (e.chunks.length : Int) < e.tot

inductive WFReach : ReasmState → Prop
  | empty : WFReach emptyReasm
  | step (st : ReasmState) (src : String) (seq idx tot : Int) (chunk : String) :
      WFReach st → 0 ≤ idx → idx < tot →
      (∀ e, st (src, seq) = some e → tot = e.tot) →
      WFReach (addFrag st src seq idx tot chunk).1

/-- The chunk dictionary immediately after the `msg["chunks"][idx] = chunk`
assignment of `add_frag`. -/
def insertedChunks (st : ReasmState) (src : String) (seq idx tot : Int)
    (chunk : String) : List (Int × String) :=
  dictInsert ((st (src, seq)).getD ⟨tot, []⟩).chunks idx chunk

/-! ## Theorems -/

/-- Every character produced by the encoder is kept by the decoder's filter. -/
theorem isB64OrPad_b64char (n : Nat) (h : n < 64) : isB64OrPad (b64char n) = true := by
  revert n
  decide

theorem isB64OrPad_pad : isB64OrPad '=' = true := by decide

/-- Looking up an encoded 6-bit value recovers it. -/
theorem b64index_b64char (n : Nat) (h : n < 64) : b64index (b64char n) = some n := by
  revert n
  decide

/-- An alphabet character for a 6-bit value is never the padding character. -/
theorem b64char_ne_pad (n : Nat) (h : n < 64) : b64char n ≠ '=' := by
  revert n
  decide

theorem b64encodeList_filter (bs : List Nat) (h : ∀ x ∈ bs, x < 256) :
    (b64encodeList bs).filter isB64OrPad = b64encodeList bs := by
  induction bs using b64encodeList.induct with
  | case1 => rfl
  | case2 a =>
      have ha := h a (by simp)
      simp [b64encodeList, List.filter,
        isB64OrPad_b64char _ (by omega : a / 4 < 64),
        isB64OrPad_b64char _ (by omega : a % 4 * 16 < 64), isB64OrPad_pad]
  | case3 a b =>
      have ha := h a (by simp)
      have hb := h b (by simp)
      simp [b64encodeList, List.filter,
        isB64OrPad_b64char _ (by omega : a / 4 < 64),
        isB64OrPad_b64char _ (by omega : a % 4 * 16 + b / 16 < 64),
        isB64OrPad_b64char _ (by omega : b % 16 * 4 < 64), isB64OrPad_pad]
  | case4 a b c rest ih =>
      have ha := h a (by simp)
      have hb := h b (by simp)
      have hc := h c (by simp)
      have hr : ∀ x ∈ rest, x < 256 := fun x hx => h x (by simp [hx])
      simp [b64encodeList, List.filter,
        isB64OrPad_b64char _ (by omega : a / 4 < 64),
        isB64OrPad_b64char _ (by omega : a % 4 * 16 + b / 16 < 64),
        isB64OrPad_b64char _ (by omega : b % 16 * 4 + c / 64 < 64),
        isB64OrPad_b64char _ (by omega : c % 64 < 64), ih hr]

theorem b64decodeCore_encodeList (bs : List Nat) (h : ∀ x ∈ bs, x < 256) :
    b64decodeCore (b64encodeList bs) = some bs := by
  induction bs using b64encodeList.induct with
  | case1 => rfl
  | case2 a =>
      have ha := h a (by simp)
      have h1 : a / 4 < 64 := by omega
      have h2 : a % 4 * 16 < 64 := by omega
      show b64decodeCore [b64char (a / 4), b64char (a % 4 * 16), '=', '='] = some [a]
      rw [b64decodeCore,
        if_pos (⟨rfl, rfl, rfl⟩ :
          ('=' : Char) = '=' ∧ ('=' : Char) = '=' ∧ ([] : List Char) = []),
        b64index_b64char _ h1, b64index_b64char _ h2]
      simp only [Option.some.injEq, List.cons.injEq, and_true]
      omega
  | case3 a b =>
      have ha := h a (by simp)
      have hb := h b (by simp)
      have h1 : a / 4 < 64 := by omega
      have h2 : a % 4 * 16 + b / 16 < 64 := by omega
      have h3 : b % 16 * 4 < 64 := by omega
      have hne : ¬(b64char (b % 16 * 4) = '=' ∧ ('=' : Char) = '=' ∧
          ([] : List Char) = []) := fun hcon => b64char_ne_pad _ h3 hcon.1
      show b64decodeCore [b64char (a / 4), b64char (a % 4 * 16 + b / 16),
        b64char (b % 16 * 4), '='] = some [a, b]
      rw [b64decodeCore, if_neg hne,
        if_pos (⟨rfl, rfl⟩ : ('=' : Char) = '=' ∧ ([] : List Char) = []),
        b64index_b64char _ h1, b64index_b64char _ h2, b64index_b64char _ h3]
      simp only [Option.some.injEq, List.cons.injEq, and_true]
      omega
  | case4 a b c rest ih =>
      have ha := h a (by simp)
      have hb := h b (by simp)
      have hc := h c (by simp)
      have hr : ∀ x ∈ rest, x < 256 := fun x hx => h x (by simp [hx])
      have h1 : a / 4 < 64 := by omega
      have h2 : a % 4 * 16 + b / 16 < 64 := by omega
      have h3 : b % 16 * 4 + c / 64 < 64 := by omega
      have h4 : c % 64 < 64 := by omega
      have hne1 : ¬(b64char (b % 16 * 4 + c / 64) = '=' ∧ b64char (c % 64) = '=' ∧
          b64encodeList rest = []) := fun hcon => b64char_ne_pad _ h3 hcon.1
      have hne2 : ¬(b64char (c % 64) = '=' ∧ b64encodeList rest = []) :=
        fun hcon => b64char_ne_pad _ h4 hcon.1
      show b64decodeCore (b64char (a / 4) :: b64char (a % 4 * 16 + b / 16) ::
        b64char (b % 16 * 4 + c / 64) :: b64char (c % 64) :: b64encodeList rest) =
        some (a :: b :: c :: rest)
      rw [b64decodeCore, if_neg hne1, if_neg hne2,
        b64index_b64char _ h1, b64index_b64char _ h2, b64index_b64char _ h3,
        b64index_b64char _ h4, ih hr]
      have hc64 : c / 64 < 4 := by omega
      have d1 : (b % 16 * 4 + c / 64) / 4 = b % 16 := by
        rw [Nat.add_comm, Nat.add_mul_div_right _ _ (by norm_num : 0 < 4),
          Nat.div_eq_of_lt hc64, Nat.zero_add]
      have d2 : (b % 16 * 4 + c / 64) % 4 = c / 64 := by
        rw [Nat.add_comm, Nat.add_mul_mod_self_right, Nat.mod_eq_of_lt hc64]
      have hb16 : b / 16 < 16 := by omega
      have d3 : (a % 4 * 16 + b / 16) % 16 = b / 16 := by
        rw [Nat.add_comm, Nat.add_mul_mod_self_right, Nat.mod_eq_of_lt hb16]
      have d4 : (a % 4 * 16 + b / 16) / 16 = a % 4 := by
        rw [Nat.add_comm, Nat.add_mul_div_right _ _ (by norm_num : 0 < 16),
          Nat.div_eq_of_lt hb16, Nat.zero_add]
      show some ((a / 4 * 4 + (a % 4 * 16 + b / 16) / 16) ::
          ((a % 4 * 16 + b / 16) % 16 * 16 + (b % 16 * 4 + c / 64) / 4) ::
          ((b % 16 * 4 + c / 64) % 4 * 64 + c % 64) :: rest) =
        some (a :: b :: c :: rest)
      rw [d1, d2, d3, d4,
        (by omega : a / 4 * 4 + a % 4 = a), (by omega : b / 16 * 16 + b % 16 = b),
        (by omega : c / 64 * 64 + c % 64 = c)]

/-- Base64 round trip: decoding the encoding of a byte string gives it back. -/
theorem b64decode_b64encode (bs : List Nat) (h : ∀ x ∈ bs, x < 256) :
    b64decode (b64encode bs) = some bs := by
  unfold b64decode b64encode
  rw [show (String.mk (b64encodeList bs)).data = b64encodeList bs from rfl,
    b64encodeList_filter bs h, b64decodeCore_encodeList bs h]

theorem chunkCount_step (L n : Nat) (hn : 1 ≤ n) (hL : 1 ≤ L) :
    (L + n - 1) / n = (L - n + n - 1) / n + 1 := by
  rcases le_or_lt n L with hnL | hLn
  · have : L + n - 1 = (L - n + n - 1) + n := by omega
    rw [this, Nat.add_div_right _ (by omega)]
  · have h0 : L - n = 0 := by omega
    have lhs : (L + n - 1) / n = 1 :=
      Nat.div_eq_of_lt_le (by omega) (by omega)
    rw [lhs, h0]
    have : (0 + n - 1) / n = 0 := Nat.div_eq_of_lt (by omega)
    rw [this]

theorem chunkList_cons (s : List Char) (n : Nat) (hn : 1 ≤ n) (hs : s ≠ []) :
    chunkList s n = s.take n :: chunkList (s.drop n) n := by
  have hL : 1 ≤ s.length := List.length_pos.mpr hs
  unfold chunkList
  rw [List.length_drop, chunkCount_step s.length n hn hL, List.range_succ_eq_map,
    List.map_cons, List.map_map]
  simp only [Nat.zero_mul, List.drop_zero]
  congr 1
  apply List.map_congr_left
  intro i _
  simp only [Function.comp_apply, List.drop_drop]
  congr 2
  rw [Nat.succ_mul]
  omega

theorem chunkList_flatten_aux (n : Nat) (hn : 1 ≤ n) :
    ∀ L, ∀ s : List Char, s.length ≤ L → (chunkList s n).flatten = s := by
  intro L
  induction L with
  | zero =>
      intro s h
      have hs : s = [] := List.length_eq_zero.mp (by omega)
      subst hs
      simp [chunkList, Nat.div_eq_of_lt (by omega : 0 + n - 1 < n)]
  | succ L ih =>
      intro s h
      rcases eq_or_ne s [] with rfl | hs
      · simp [chunkList, Nat.div_eq_of_lt (by omega : 0 + n - 1 < n)]
      · have hL : 1 ≤ s.length := List.length_pos.mpr hs
        rw [chunkList_cons s n hn hs, List.flatten_cons,
          ih (s.drop n) (by rw [List.length_drop]; omega),
          List.take_append_drop]

/-- Concatenating the slices gives back the original text. -/
theorem chunkList_flatten (s : List Char) (n : Nat) (hn : 1 ≤ n) :
    (chunkList s n).flatten = s :=
  chunkList_flatten_aux n hn s.length s le_rfl

/-- Joining the string slices gives back the original string. -/
theorem sendChunks_join (b64 : String) (n : Nat) (hn : 1 ≤ n) :
    String.join (sendChunks b64 n) = b64 := by
  apply String.ext
  rw [String.data_join]
  unfold sendChunks
  rw [List.map_map]
  have hmap : List.map (String.data ∘ String.mk) (chunkList b64.data n) =
      List.map id (chunkList b64.data n) := by
    apply List.map_congr_left
    intro l _
    rfl
  rw [hmap, List.map_id, chunkList_flatten _ _ hn]

theorem dictKeys_replace (l : List (Int × String)) (k : Int) (v : String) :
    dictKeys (l.map (fun p => if p.1 = k then (k, v) else p)) = dictKeys l := by
  unfold dictKeys
  rw [List.map_map]
  apply List.map_congr_left
  intro p _
  by_cases hp : p.1 = k
  · simp [hp]
  · simp [hp]

theorem dictAny_iff (l : List (Int × String)) (k : Int) :
    (l.any (fun p => p.1 = k)) = true ↔ k ∈ dictKeys l := by
  unfold dictKeys
  induction l with
  | nil => simp
  | cons p l ih =>
      simp only [List.any_cons, List.map_cons, List.mem_cons, Bool.or_eq_true,
        decide_eq_true_eq, ih]
      constructor
      · rintro (h1 | h1)
        · exact Or.inl h1.symm
        · exact Or.inr h1
      · rintro (h1 | h1)
        · exact Or.inl h1.symm
        · exact Or.inr h1

theorem dictLookup_replace_self (l : List (Int × String)) (k : Int) (v : String)
    (h : k ∈ dictKeys l) :
    dictLookup (l.map (fun p => if p.1 = k then (k, v) else p)) k = some v := by
  induction l with
  | nil => simp [dictKeys] at h
  | cons p l ih =>
      by_cases hp : p.1 = k
      · simp only [List.map_cons, if_pos hp, dictLookup]
        rw [List.find?_cons_of_pos _ (by simp)]
        rfl
      · have hmem : k ∈ dictKeys l := by
          have h2 : k = p.1 ∨ k ∈ dictKeys l := by simpa [dictKeys] using h
          rcases h2 with h1 | h1
          · exact absurd h1.symm hp
          · exact h1
        simp only [List.map_cons, if_neg hp, dictLookup]
        rw [List.find?_cons_of_neg _ (by simp [hp])]
        simpa [dictLookup] using ih hmem

theorem dictLookup_append_self (l : List (Int × String)) (k : Int) (v : String)
    (h : k ∉ dictKeys l) : dictLookup (l ++ [(k, v)]) k = some v := by
  induction l with
  | nil =>
      simp only [List.nil_append, dictLookup]
      rw [List.find?_cons_of_pos _ (by simp)]
      rfl
  | cons p l ih =>
      have hp : ¬p.1 = k := by
        intro he
        exact h (by simp [dictKeys, he])
      have hmem : k ∉ dictKeys l := fun hc => h (by simp [dictKeys] at hc ⊢; tauto)
      simp only [List.cons_append, dictLookup]
      rw [List.find?_cons_of_neg _ (by simp [hp])]
      simpa [dictLookup] using ih hmem

theorem dictLookup_replace_ne (l : List (Int × String)) (k : Int) (v : String)
    (k2 : Int) (h : k2 ≠ k) :
    dictLookup (l.map (fun p => if p.1 = k then (k, v) else p)) k2 = dictLookup l k2 := by
  induction l with
  | nil => rfl
  | cons p l ih =>
      by_cases hp : p.1 = k
      · simp only [List.map_cons, if_pos hp, dictLookup]
        rw [List.find?_cons_of_neg _ (by simp [Ne.symm h]),
          List.find?_cons_of_neg _ (by simp [hp, Ne.symm h])]
        simpa [dictLookup] using ih
      · by_cases hp2 : p.1 = k2
        · simp only [List.map_cons, if_neg hp, dictLookup]
          rw [List.find?_cons_of_pos _ (by simp [hp2]),
            List.find?_cons_of_pos _ (by simp [hp2])]
        · simp only [List.map_cons, if_neg hp, dictLookup]
          rw [List.find?_cons_of_neg _ (by simp [hp2]),
            List.find?_cons_of_neg _ (by simp [hp2])]
          simpa [dictLookup] using ih

theorem dictLookup_append_ne (l : List (Int × String)) (k : Int) (v : String)
    (k2 : Int) (h : k2 ≠ k) :
    dictLookup (l ++ [(k, v)]) k2 = dictLookup l k2 := by
  induction l with
  | nil =>
      simp only [List.nil_append, dictLookup]
      rw [List.find?_cons_of_neg _ (by simp [Ne.symm h])]
  | cons p l ih =>
      by_cases hp2 : p.1 = k2
      · simp only [List.cons_append, dictLookup]
        rw [List.find?_cons_of_pos _ (by simp [hp2]),
          List.find?_cons_of_pos _ (by simp [hp2])]
      · simp only [List.cons_append, dictLookup]
        rw [List.find?_cons_of_neg _ (by simp [hp2]),
          List.find?_cons_of_neg _ (by simp [hp2])]
        simpa [dictLookup] using ih

theorem dictLookup_insert_self (l : List (Int × String)) (k : Int) (v : String) :
    dictLookup (dictInsert l k v) k = some v := by
  unfold dictInsert
  by_cases hmem : k ∈ dictKeys l
  · rw [if_pos ((dictAny_iff l k).mpr hmem)]
    exact dictLookup_replace_self l k v hmem
  · rw [if_neg (fun hc => hmem ((dictAny_iff l k).mp hc))]
    exact dictLookup_append_self l k v hmem

theorem dictLookup_insert_ne (l : List (Int × String)) (k : Int) (v : String)
    (k2 : Int) (h : k2 ≠ k) :
    dictLookup (dictInsert l k v) k2 = dictLookup l k2 := by
  unfold dictInsert
  by_cases hc : l.any (fun p => p.1 = k) = true
  · rw [if_pos hc]
    exact dictLookup_replace_ne l k v k2 h
  · rw [if_neg hc]
    exact dictLookup_append_ne l k v k2 h

theorem dictKeys_insert_of_mem (l : List (Int × String)) (k : Int) (v : String)
    (h : k ∈ dictKeys l) : dictKeys (dictInsert l k v) = dictKeys l := by
  unfold dictInsert
  rw [if_pos ((dictAny_iff l k).mpr h)]
  exact dictKeys_replace l k v

theorem dictKeys_insert_of_not_mem (l : List (Int × String)) (k : Int) (v : String)
    (h : k ∉ dictKeys l) : dictKeys (dictInsert l k v) = dictKeys l ++ [k] := by
  unfold dictInsert
  rw [if_neg (fun hc => h ((dictAny_iff l k).mp hc))]
  unfold dictKeys
  rw [List.map_append]
  rfl

theorem dictInsert_length_of_mem (l : List (Int × String)) (k : Int) (v : String)
    (h : k ∈ dictKeys l) : (dictInsert l k v).length = l.length := by
  unfold dictInsert
  rw [if_pos ((dictAny_iff l k).mpr h), List.length_map]

theorem dictInsert_length_of_not_mem (l : List (Int × String)) (k : Int) (v : String)
    (h : k ∉ dictKeys l) : (dictInsert l k v).length = l.length + 1 := by
  unfold dictInsert
  rw [if_neg (fun hc => h ((dictAny_iff l k).mp hc)), List.length_append]
  rfl

theorem dictKeys_length (l : List (Int × String)) : (dictKeys l).length = l.length :=
  List.length_map l Prod.fst

/-- Branch equations for `pendingAdd`. -/
theorem pendingAdd_eq_pending {K : Type} [DecidableEq K] (m : K → Option PEntry)
    (key : K) (idx tot : Int) (chunk : String)
    (hlen : ¬(((dictInsert ((m key).getD ⟨tot, []⟩).chunks idx chunk).length : Int) = tot)) :
    pendingAdd m key idx tot chunk =
      (Function.update m key
        (some ⟨tot, dictInsert ((m key).getD ⟨tot, []⟩).chunks idx chunk⟩),
       FragResult.pending) := by
  unfold pendingAdd
  dsimp only
  rw [if_neg hlen]

theorem pendingAdd_eq_completed {K : Type} [DecidableEq K] (m : K → Option PEntry)
    (key : K) (idx tot : Int) (chunk : String) (parts : List String)
    (hlen : ((dictInsert ((m key).getD ⟨tot, []⟩).chunks idx chunk).length : Int) = tot)
    (hparts : orderedChunks (dictInsert ((m key).getD ⟨tot, []⟩).chunks idx chunk) tot =
      some parts) :
    pendingAdd m key idx tot chunk =
      (Function.update m key none, FragResult.completed (String.join parts)) := by
  unfold pendingAdd
  dsimp only
  rw [if_pos hlen, hparts]

theorem pendingAdd_eq_keyError {K : Type} [DecidableEq K] (m : K → Option PEntry)
    (key : K) (idx tot : Int) (chunk : String)
    (hlen : ((dictInsert ((m key).getD ⟨tot, []⟩).chunks idx chunk).length : Int) = tot)
    (hparts : orderedChunks (dictInsert ((m key).getD ⟨tot, []⟩).chunks idx chunk) tot =
      none) :
    pendingAdd m key idx tot chunk =
      (Function.update m key
        (some ⟨tot, dictInsert ((m key).getD ⟨tot, []⟩).chunks idx chunk⟩),
       FragResult.keyError) := by
  unfold pendingAdd
  dsimp only
  rw [if_pos hlen, hparts]

theorem entryOK_getD (total : Nat) (f : Nat → String) (done : List Nat)
    (o : Option PEntry) (hOK : entryOK total f done o) :
    dictKeys (o.getD ⟨(total : Int), []⟩).chunks = done.map (fun (n : Nat) => (n : Int)) ∧
    (∀ j ∈ done, dictLookup (o.getD ⟨(total : Int), []⟩).chunks (j : Int) =
      some (f j)) := by
  cases o with
  | none =>
      cases hOK
      exact ⟨rfl, by intro j hj; cases hj⟩
  | some e => exact ⟨hOK.2.1, hOK.2.2⟩

theorem entry_after_insert (total : Nat) (f : Nat → String) (done : List Nat)
    (o : Option PEntry) (i : Nat) (hOK : entryOK total f done o) (hfresh : i ∉ done) :
    dictKeys (dictInsert (o.getD ⟨(total : Int), []⟩).chunks (i : Int) (f i)) =
      (done ++ [i]).map (fun (n : Nat) => (n : Int)) ∧
    (∀ j ∈ done ++ [i],
      dictLookup (dictInsert (o.getD ⟨(total : Int), []⟩).chunks (i : Int) (f i))
        (j : Int) = some (f j)) ∧
    (dictInsert (o.getD ⟨(total : Int), []⟩).chunks (i : Int) (f i)).length =
      done.length + 1 := by
  obtain ⟨hkeys, hlook⟩ := entryOK_getD total f done o hOK
  set c0 := (o.getD ⟨(total : Int), []⟩).chunks with hc0
  have hni : (i : Int) ∉ dictKeys c0 := by
    rw [hkeys]
    intro hmem
    rcases List.mem_map.mp hmem with ⟨a, ha, hai⟩
    have : a = i := by omega
    exact hfresh (this ▸ ha)
  refine ⟨?_, ?_, ?_⟩
  · rw [dictKeys_insert_of_not_mem c0 _ _ hni, hkeys, List.map_append]
    rfl
  · intro j hj
    rcases List.mem_append.mp hj with hj | hj
    · have hne : (j : Int) ≠ (i : Int) := by
        intro he
        have : j = i := by omega
        exact hfresh (this ▸ hj)
      rw [dictLookup_insert_ne c0 _ _ _ hne]
      exact hlook j hj
    · have : j = i := by simpa using hj
      subst this
      exact dictLookup_insert_self c0 _ _
  · rw [dictInsert_length_of_not_mem c0 _ _ hni, ← dictKeys_length, hkeys,
      List.length_map]

theorem mapM_lookup_eq_map (g : Nat → Option String) (f : Nat → String)
    (l : List Nat) (h : ∀ j ∈ l, g j = some (f j)) :
    l.mapM g = some (l.map f) := by
  induction l with
  | nil => rfl
  | cons a l ih =>
      rw [List.mapM_cons, h a (by simp), ih (fun j hj => h j (by simp [hj]))]
      rfl

theorem orderedChunks_complete (chunks : List (Int × String)) (total : Nat)
    (f : Nat → String)
    (h : ∀ j < total, dictLookup chunks (j : Int) = some (f j)) :
    orderedChunks chunks (total : Int) = some ((List.range total).map f) := by
  unfold orderedChunks
  rw [show ((total : Int)).toNat = total from rfl]
  exact mapM_lookup_eq_map _ f _ (fun j hj => h j (List.mem_range.mp hj))

/-- Delivering the remaining fragments of a permutation of `0..total-1`:
every delivery but the last returns `pending`; the last returns the in-order
concatenation and deletes the key. -/
theorem deliverPending_spec {K : Type} [DecidableEq K] (key : K) (total : Nat)
    (f : Nat → String) :
    ∀ (todo done : List Nat) (m : K → Option PEntry),
      (done ++ todo).Perm (List.range total) →
      todo ≠ [] →
      entryOK total f done (m key) →
      (deliverPending key (total : Int) f m todo).2 =
          List.replicate (todo.length - 1) FragResult.pending ++
            [FragResult.completed (String.join ((List.range total).map f))] ∧
      (deliverPending key (total : Int) f m todo).1 key = none := by
  intro todo
  induction todo with
  | nil => exact fun done m hperm hne hOK => absurd rfl hne
  | cons i rest ih =>
      intro done m hperm hne hOK
      have hnodup : (done ++ i :: rest).Nodup :=
        (hperm.nodup_iff).mpr (List.nodup_range total)
      have hfresh : i ∉ done := by
        intro hc
        have := List.disjoint_of_nodup_append hnodup
        exact this hc (by simp)
      obtain ⟨hkeys, hlook, hlen⟩ :=
        entry_after_insert total f done (m key) i hOK hfresh
      have hlentot : done.length + (i :: rest).length = total := by
        have := hperm.length_eq
        simpa using this
      cases rest with
      | nil =>
          have hcond : ((dictInsert ((m key).getD
              ⟨(total : Int), []⟩).chunks (i : Int) (f i)).length : Int) =
              (total : Int) := by
            rw [hlen]
            simp at hlentot
            omega
          have hcov : ∀ j < total,
              dictLookup (dictInsert ((m key).getD
                ⟨(total : Int), []⟩).chunks (i : Int) (f i)) (j : Int) =
              some (f j) := by
            intro j hj
            apply hlook
            have : j ∈ done ++ [i] := hperm.mem_iff.mpr (List.mem_range.mpr hj)
            exact this
          constructor
          · show (pendingAdd m key (i : Int) (total : Int) (f i)).2 :: _ = _
            rw [pendingAdd_eq_completed m key (i : Int) (total : Int) (f i)
              ((List.range total).map f) hcond
              (orderedChunks_complete _ total f hcov)]
            rfl
          · show (deliverPending key (total : Int) f _ []).1 key = none
            rw [pendingAdd_eq_completed m key (i : Int) (total : Int) (f i)
              ((List.range total).map f) hcond
              (orderedChunks_complete _ total f hcov)]
            show Function.update m key none key = none
            exact Function.update_same key none m
      | cons j rest2 =>
          have hcond : ¬(((dictInsert ((m key).getD
              ⟨(total : Int), []⟩).chunks (i : Int) (f i)).length : Int) =
              (total : Int)) := by
            rw [hlen]
            simp at hlentot
            omega
          have hstep := pendingAdd_eq_pending m key (i : Int) (total : Int) (f i) hcond
          have hOK2 : entryOK total f (done ++ [i])
              ((Function.update m key
                (some ⟨(total : Int), dictInsert ((m key).getD
                  ⟨(total : Int), []⟩).chunks (i : Int) (f i)⟩)) key) := by
            rw [Function.update_same]
            exact ⟨rfl, hkeys, hlook⟩
          have hperm2 : ((done ++ [i]) ++ (j :: rest2)).Perm (List.range total) := by
            rw [List.append_assoc]
            exact hperm
          have hrec := ih (done ++ [i]) _ hperm2 (by simp) hOK2
          constructor
          · show (pendingAdd m key (i : Int) (total : Int) (f i)).2 ::
              (deliverPending key (total : Int) f
                (pendingAdd m key (i : Int) (total : Int) (f i)).1
                (j :: rest2)).2 = _
            rw [hstep]
            simp only []
            rw [hrec.1]
            show FragResult.pending :: _ = _
            rw [show (i :: j :: rest2).length - 1 = (j :: rest2).length by simp]
            rw [show (j :: rest2).length = ((j :: rest2).length - 1) + 1 by simp]
            rw [List.replicate_succ]
            rfl
          · show (deliverPending key (total : Int) f
              (pendingAdd m key (i : Int) (total : Int) (f i)).1
              (j :: rest2)).1 key = none
            rw [hstep]
            exact hrec.2

theorem sendFileGo_abort (events : Nat → ChunkEvent) :
    ∀ (k n idx : Nat), k < n →
      (∀ j < k, (consumeTxResult (events (idx + j))).ok = true) →
      (consumeTxResult (events (idx + k))).ok = false →
      sendFileGo events idx n = (false, k + 1) := by
  intro k
  induction k with
  | zero =>
      intro n idx hk _ hfail
      match n, hk with
      | n + 1, _ =>
          show sendFileGo events idx (n + 1) = (false, 1)
          rw [sendFileGo, if_neg (by simpa using hfail)]
  | succ k ih =>
      intro n idx hk hok hfail
      match n, hk with
      | n + 1, _ =>
          have h0 : (consumeTxResult (events idx)).ok = true := by
            have := hok 0 (by omega)
            simpa using this
          show sendFileGo events idx (n + 1) = (false, k + 1 + 1)
          rw [sendFileGo, if_pos h0,
            ih n (idx + 1) (by omega)
              (fun j hj => by
                have := hok (j + 1) (by omega)
                simpa [Nat.add_assoc, Nat.add_comm 1 j] using this)
              (by simpa [Nat.add_assoc, Nat.add_comm 1 k] using hfail)]

theorem sendFileGo_all_ok (events : Nat → ChunkEvent) :
    ∀ (n idx : Nat), (∀ j < n, (consumeTxResult (events (idx + j))).ok = true) →
      sendFileGo events idx n = (true, n) := by
  intro n
  induction n with
  | zero => intro idx _; rfl
  | succ n ih =>
      intro idx hok
      have h0 : (consumeTxResult (events idx)).ok = true := by
        have := hok 0 (by omega)
        simpa using this
      rw [sendFileGo, if_pos h0,
        ih (idx + 1) (fun j hj => by
          have := hok (j + 1) (by omega)
          simpa [Nat.add_assoc, Nat.add_comm 1 j] using this)]

theorem meshAbort_iff (failed total : Nat) :
    meshAbort failed total = true ↔ (failed : ℚ) > (total : ℚ) * (3 / 10) := by
  unfold meshAbort
  rw [decide_eq_true_iff]
  rw [gt_iff_lt, gt_iff_lt, mul_comm (total : ℚ) (3 / 10), div_mul_eq_mul_div,
    div_lt_iff₀ (by norm_num : (0 : ℚ) < 10)]
  constructor
  · intro h
    have h2 : ((3 * total : Nat) : ℚ) < ((10 * failed : Nat) : ℚ) := by exact_mod_cast h
    push_cast at h2
    linarith
  · intro h
    have h2 : ((3 * total : Nat) : ℚ) < ((10 * failed : Nat) : ℚ) := by push_cast; linarith
    exact_mod_cast h2

theorem meshStep_check (st : MeshStats) (ev : MeshEvent) (h : ev ≠ .cmdWriteFailed) :
    (meshStep st ev).2 = true := by
  cases ev with
  | cmdWriteFailed => exact absurd rfl h
  | completedSentinel => rfl
  | failedSentinel => rfl
  | timeout => rfl

/-- If the backpressure condition holds right after a chunk whose outcome was
observed through the sentinel wait, the run returns failure having attempted
no chunk beyond it. -/
theorem meshGo_abort (events : Nat → MeshEvent) (total i : Nat)
    (hi : i < total) (hev : events i ≠ .cmdWriteFailed)
    (habort : meshAbort (meshStatsAfter events (i + 1)).failed total = true) :
    ∀ (d idx : Nat), idx + d = i →
      (meshGo events total (total - idx) idx (meshStatsAfter events idx)).1 = false ∧
      (meshGo events total (total - idx) idx (meshStatsAfter events idx)).2 ≤ i + 1 := by
  intro d
  induction d with
  | zero =>
      intro idx hidx
      have he : idx = i := by omega
      subst he
      obtain ⟨r, hr⟩ : ∃ r, total - idx = r + 1 := ⟨total - idx - 1, by omega⟩
      rw [hr, meshGo, if_pos]
      · exact ⟨rfl, by omega⟩
      · rw [Bool.and_eq_true]
        refine ⟨meshStep_check _ _ hev, ?_⟩
        have hst : (meshStep (meshStatsAfter events idx) (events idx)).1 =
            meshStatsAfter events (idx + 1) := rfl
        rw [hst]
        exact habort
  | succ d ih =>
      intro idx hidx
      obtain ⟨r, hr⟩ : ∃ r, total - idx = r + 1 := ⟨total - idx - 1, by omega⟩
      rw [hr, meshGo]
      by_cases hc : ((meshStep (meshStatsAfter events idx) (events idx)).2 &&
          meshAbort (meshStep (meshStatsAfter events idx) (events idx)).1.failed total) = true
      · rw [if_pos hc]
        exact ⟨rfl, by omega⟩
      · rw [if_neg hc]
        have hst : (meshStep (meshStatsAfter events idx) (events idx)).1 =
            meshStatsAfter events (idx + 1) := rfl
        have hr2 : r = total - (idx + 1) := by omega
        rw [hst, hr2]
        exact ih (idx + 1) (by omega)

theorem charOfNat_digit_toNat (d : Nat) (h : d < 10) :
    (Char.ofNat (48 + d)).toNat = 48 + d := by
  revert d
  decide

theorem decVal_append_digit (ds : List Char) (c : Char) :
    decVal (ds ++ [c]) = decVal ds * 10 + (c.toNat - 48) := by
  unfold decVal
  rw [List.foldl_append]
  rfl

theorem decVal_decDigits (n : Nat) : decVal (decDigits n) = n := by
  induction n using Nat.strong_induction_on with
  | _ n ih =>
    by_cases h : n < 10
    · rw [decDigits, if_pos h]
      show 0 * 10 + ((Char.ofNat (48 + n)).toNat - 48) = n
      rw [charOfNat_digit_toNat n h]
      omega
    · rw [decDigits, if_neg h, decVal_append_digit,
        ih (n / 10) (Nat.div_lt_self (by omega) (by omega)),
        charOfNat_digit_toNat (n % 10) (by omega)]
      omega

theorem natStr_injective (a b : Nat) (h : natStr a = natStr b) : a = b := by
  have hd : decDigits a = decDigits b := congrArg String.data h
  have := congrArg decVal hd
  rwa [decVal_decDigits, decVal_decDigits] at this

theorem candName_injective (base suffix : String) (a b : Nat)
    (h : base ++ "_" ++ natStr a ++ suffix = base ++ "_" ++ natStr b ++ suffix) :
    a = b := by
  have hd := congrArg String.data h
  simp only [String.data_append, List.append_assoc] at hd
  have h1 := List.append_cancel_left hd
  have h2 := List.append_cancel_left h1
  have h3 := List.append_cancel_right h2
  exact natStr_injective a b (String.ext h3)

theorem exists_fresh_cand (existing : List String) (base suffix : String)
    (counter : Nat) :
    ∃ j < existing.length + 1,
      (base ++ "_" ++ natStr (counter + j) ++ suffix) ∉ existing := by
  by_contra hall
  push_neg at hall
  have hinj : Set.InjOn (fun j => base ++ "_" ++ natStr (counter + j) ++ suffix)
      ↑(Finset.range (existing.length + 1)) := by
    intro x _ y _ hxy
    have := candName_injective base suffix (counter + x) (counter + y) hxy
    omega
  have hcard := Finset.card_le_card_of_injOn
    (fun j => base ++ "_" ++ natStr (counter + j) ++ suffix)
    (fun j hj => List.mem_toFinset.mpr (hall j (Finset.mem_range.mp hj)))
    hinj
  rw [Finset.card_range] at hcard
  have := List.toFinset_card_le existing
  omega

theorem uniqueNameAux_not_mem (existing : List String) (base suffix : String) :
    ∀ (fuel counter : Nat),
      (∃ j < fuel, (base ++ "_" ++ natStr (counter + j) ++ suffix) ∉ existing) →
      uniqueNameAux existing base suffix counter fuel ∉ existing := by
  intro fuel
  induction fuel with
  | zero =>
      intro counter h
      obtain ⟨j, hj, _⟩ := h
      omega
  | succ fuel ih =>
      intro counter h
      by_cases hc : (base ++ "_" ++ natStr counter ++ suffix) ∈ existing
      · rw [uniqueNameAux, if_pos hc]
        apply ih
        obtain ⟨j, hj, hout⟩ := h
        match j, hj with
        | 0, _ => exact absurd hc (by simpa using hout)
        | j + 1, hj =>
            exact ⟨j, by omega, by
              have : counter + (j + 1) = counter + 1 + j := by omega
              rwa [this] at hout⟩
      · rw [uniqueNameAux, if_neg hc]
        exact hc

/-- The mesh receiver's derived output name never collides with an existing
file. -/
theorem uniqueName_not_mem (existing : List String) (fname : String) :
    uniqueName existing fname ∉ existing := by
  unfold uniqueName
  by_cases hc : fname ∈ existing
  · rw [if_pos hc]
    apply uniqueNameAux_not_mem
    exact exists_fresh_cand existing (pathStem fname) (pathSuffix fname) 1
  · rw [if_neg hc]
    exact hc

theorem dictLookup_isSome_of_mem (l : List (Int × String)) (k : Int)
    (h : k ∈ dictKeys l) : ∃ v, dictLookup l k = some v := by
  induction l with
  | nil => simp [dictKeys] at h
  | cons p l ih =>
      by_cases hp : p.1 = k
      · refine ⟨p.2, ?_⟩
        simp only [dictLookup]
        rw [List.find?_cons_of_pos _ (by simp [hp])]
        rfl
      · have hm : k ∈ dictKeys l := by
          have h2 : k = p.1 ∨ k ∈ dictKeys l := by simpa [dictKeys] using h
          rcases h2 with h1 | h1
          · exact absurd h1.symm hp
          · exact h1
        obtain ⟨v, hv⟩ := ih hm
        refine ⟨v, ?_⟩
        simp only [dictLookup]
        rw [List.find?_cons_of_neg _ (by simp [hp])]
        simpa [dictLookup] using hv

theorem mapM_isSome (g : Nat → Option String) (l : List Nat)
    (h : ∀ j ∈ l, ∃ v, g j = some v) : ∃ out, l.mapM g = some out := by
  induction l with
  | nil => exact ⟨[], rfl⟩
  | cons a l ih =>
      obtain ⟨v, hv⟩ := h a (by simp)
      obtain ⟨out, hout⟩ := ih (fun j hj => h j (by simp [hj]))
      refine ⟨v :: out, ?_⟩
      rw [List.mapM_cons, hv, hout]
      rfl

/-- A nodup set of `tot` integer keys inside `[0, tot)` covers every index. -/
theorem keys_cover (keys : List Int) (tot : Int)
    (hN : keys.Nodup) (hB : ∀ i ∈ keys, 0 ≤ i ∧ i < tot)
    (hL : (keys.length : Int) = tot) :
    ∀ j < tot.toNat, (j : Int) ∈ keys := by
  intro j hj
  have hsub : keys.toFinset ⊆ Finset.Ico (0 : Int) tot := by
    intro x hx
    have := hB x (List.mem_toFinset.mp hx)
    simp [Finset.mem_Ico]
    omega
  have hcard : keys.toFinset.card = (Finset.Ico (0 : Int) tot).card := by
    rw [List.toFinset_card_of_nodup hN, Int.card_Ico]
    omega
  have heq : keys.toFinset = Finset.Ico (0 : Int) tot :=
    Finset.eq_of_subset_of_card_le hsub (le_of_eq hcard.symm)
  have : (j : Int) ∈ Finset.Ico (0 : Int) tot := by
    simp [Finset.mem_Ico]
    omega
  rw [← heq] at this
  exact List.mem_toFinset.mp this

/-- Complete step characterization of one well-formed `add_frag` delivery on
a state satisfying the invariant: the call completes exactly when the new
length equals the total, in which case the ordered lookup succeeds, the
payload is its concatenation and the key is deleted; otherwise the call is
`pending` and stores the entry; a `KeyError` is impossible; and the resulting
state satisfies the invariant. -/
theorem addFrag_sound (st : ReasmState) (hInv : ReasmInv st)
    (src : String) (seq idx tot : Int) (chunk : String)
    (h0 : 0 ≤ idx) (h1 : idx < tot)
    (hTot : ∀ e, st (src, seq) = some e → tot = e.tot) :
    (((insertedChunks st src seq idx tot chunk).length : Int) = tot →
      ∃ parts, orderedChunks (insertedChunks st src seq idx tot chunk) tot = some parts ∧
        addFrag st src seq idx tot chunk =
          (Function.update st (src, seq) none,
           FragResult.completed (String.join parts))) ∧
    (((insertedChunks st src seq idx tot chunk).length : Int) ≠ tot →
      addFrag st src seq idx tot chunk =
        (Function.update st (src, seq)
          (some ⟨tot, insertedChunks st src seq idx tot chunk⟩),
         FragResult.pending)) ∧
    ReasmInv (addFrag st src seq idx tot chunk).1 := by
  -- facts about the chunk dictionary before the assignment
  have hpre : (dictKeys ((st (src, seq)).getD ⟨tot, []⟩).chunks).Nodup ∧
      (∀ i ∈ dictKeys ((st (src, seq)).getD ⟨tot, []⟩).chunks, 0 ≤ i ∧ i < tot) ∧
      ((((st (src, seq)).getD ⟨tot, []⟩).chunks).length : Int) < tot := by
    cases hst : st (src, seq) with
    | none =>
        refine ⟨by simp [dictKeys], by simp [dictKeys], by simp; omega⟩
    | some e =>
        obtain ⟨hN, hB, hL⟩ := hInv (src, seq) e hst
        have he : tot = e.tot := hTot e hst
        exact ⟨hN, by rw [he]; exact hB, by rw [he]; exact hL⟩
  obtain ⟨hN0, hB0, hL0⟩ := hpre
  -- facts about the dictionary after the assignment
  have hafter : (dictKeys (insertedChunks st src seq idx tot chunk)).Nodup ∧
      (∀ i ∈ dictKeys (insertedChunks st src seq idx tot chunk), 0 ≤ i ∧ i < tot) ∧
      ((insertedChunks st src seq idx tot chunk).length : Int) ≤ tot := by
    unfold insertedChunks
    by_cases hm : idx ∈ dictKeys ((st (src, seq)).getD ⟨tot, []⟩).chunks
    · rw [dictKeys_insert_of_mem _ _ _ hm, dictInsert_length_of_mem _ _ _ hm]
      exact ⟨hN0, hB0, le_of_lt hL0⟩
    · rw [dictKeys_insert_of_not_mem _ _ _ hm,
        dictInsert_length_of_not_mem _ _ _ hm]
      refine ⟨?_, ?_, ?_⟩
      · simp [List.nodup_append, hN0, hm]
      · intro i hi
        rcases List.mem_append.mp hi with hi | hi
        · exact hB0 i hi
        · have : i = idx := by simpa using hi
          subst this
          exact ⟨h0, h1⟩
      · push_cast
        omega
  obtain ⟨hN, hB, hLe⟩ := hafter
  have complete_case : ((insertedChunks st src seq idx tot chunk).length : Int) = tot →
      ∃ parts, orderedChunks (insertedChunks st src seq idx tot chunk) tot = some parts ∧
        addFrag st src seq idx tot chunk =
          (Function.update st (src, seq) none,
           FragResult.completed (String.join parts)) := by
    intro hlen
    have hcov := keys_cover (dictKeys (insertedChunks st src seq idx tot chunk)) tot hN hB
      (by rwa [dictKeys_length])
    obtain ⟨parts, hparts⟩ := mapM_isSome
      (fun i => dictLookup (insertedChunks st src seq idx tot chunk) (Int.ofNat i))
      (List.range tot.toNat)
      (fun j hj => dictLookup_isSome_of_mem _ _ (hcov j (List.mem_range.mp hj)))
    have hparts2 : orderedChunks (insertedChunks st src seq idx tot chunk) tot =
        some parts := hparts
    exact ⟨parts, hparts2, pendingAdd_eq_completed st (src, seq) idx tot chunk parts
      hlen hparts2⟩
  have pending_case : ((insertedChunks st src seq idx tot chunk).length : Int) ≠ tot →
      addFrag st src seq idx tot chunk =
        (Function.update st (src, seq)
          (some ⟨tot, insertedChunks st src seq idx tot chunk⟩),
         FragResult.pending) :=
    fun hlen => pendingAdd_eq_pending st (src, seq) idx tot chunk hlen
  refine ⟨complete_case, pending_case, ?_⟩
  by_cases hlen : ((insertedChunks st src seq idx tot chunk).length : Int) = tot
  · obtain ⟨parts, _, heq⟩ := complete_case hlen
    rw [heq]
    intro key2 e2 h2
    by_cases hk : key2 = (src, seq)
    · subst hk
      have h2c : Function.update st (src, seq) none (src, seq) = some e2 := h2
      rw [Function.update_same] at h2c
      cases h2c
    · have h2c : Function.update st (src, seq) none key2 = some e2 := h2
      rw [Function.update_noteq hk] at h2c
      exact hInv key2 e2 h2c
  · rw [pending_case hlen]
    intro key2 e2 h2
    by_cases hk : key2 = (src, seq)
    · subst hk
      have h2c : Function.update st (src, seq)
          (some ⟨tot, insertedChunks st src seq idx tot chunk⟩) (src, seq) =
          some e2 := h2
      rw [Function.update_same] at h2c
      cases h2c
      exact ⟨hN, hB, lt_of_le_of_ne hLe hlen⟩
    · have h2c : Function.update st (src, seq)
          (some ⟨tot, insertedChunks st src seq idx tot chunk⟩) key2 = some e2 := h2
      rw [Function.update_noteq hk] at h2c
      exact hInv key2 e2 h2c

/-- Every well-formed-reachable state satisfies the invariant. -/
theorem wfReach_inv (st : ReasmState) (h : WFReach st) : ReasmInv st := by
  induction h with
  | empty => intro key e he; cases he
  | step st src seq idx tot chunk _hre h0 h1 hTot ih =>
      exact (addFrag_sound st ih src seq idx tot chunk h0 h1 hTot).2.2

/-! ## Helper lemmas for the claims -/

theorem map_getD_range (l : List String) :
    (List.range l.length).map (fun i => l.getD i "") = l := by
  induction l with
  | nil => rfl
  | cons a l ih =>
      rw [List.length_cons, List.range_succ_eq_map, List.map_cons, List.map_map]
      have h2 : List.map ((fun i => (a :: l).getD i "") ∘ Nat.succ) (List.range l.length)
          = List.map (fun i => l.getD i "") (List.range l.length) := by
        apply List.map_congr_left
        intro i _
        rfl
      rw [h2, ih]
      rfl

theorem b64encodeList_ne_nil (bs : List Nat) (h : bs ≠ []) : b64encodeList bs ≠ [] := by
  match bs, h with
  | [a], _ => simp [b64encodeList]
  | [a, b], _ => simp [b64encodeList]
  | a :: b :: c :: rest, _ => simp [b64encodeList]

theorem sendChunks_length_pos (P : List Nat) (S : Nat) (hP : P ≠ []) (hS : 1 ≤ S) :
    1 ≤ (sendChunks (b64encode P) S).length := by
  unfold sendChunks
  rw [List.length_map]
  have hdat : (b64encode P).data = b64encodeList P := rfl
  have hnn : (b64encode P).data ≠ [] := by
    rw [hdat]
    exact b64encodeList_ne_nil P hP
  rw [chunkList_cons _ _ hS hnn]
  simp

/-- The pending map after a `completed` result is the deletion update. -/
theorem pendingAdd_completed_state {K : Type} [DecidableEq K] (m : K → Option PEntry)
    (key : K) (idx tot : Int) (chunk : String) (full : String)
    (h : (pendingAdd m key idx tot chunk).2 = FragResult.completed full) :
    (pendingAdd m key idx tot chunk).1 = Function.update m key none := by
  by_cases hlen : ((dictInsert ((m key).getD ⟨tot, []⟩).chunks idx chunk).length : Int) = tot
  · cases horder : orderedChunks (dictInsert ((m key).getD ⟨tot, []⟩).chunks idx chunk) tot with
    | none =>
        rw [pendingAdd_eq_keyError m key idx tot chunk hlen horder] at h
        cases h
    | some parts =>
        rw [pendingAdd_eq_completed m key idx tot chunk parts hlen horder]
  · rw [pendingAdd_eq_pending m key idx tot chunk hlen] at h
    cases h

/-! ## The claims -/

/-- C1. For every payload byte string `P` and every chunk size
`S ∈ {1, 7, 40000}`: base64-encoding `P`, splitting the encoded text into
consecutive `S`-character chunks, joining them again and base64-decoding the
result yields exactly `P`; moreover (for `P ≠ []`) delivering every chunk
`i` of `total` in order to the chunk assembler's pending map makes every
delivery but the last pend and the last return exactly the reassembled
base64 text (which decodes to `P`), deleting the key; in particular
delivering FILECHUNK chunks `"SGVs"` (0 of 2) and `"bG8="` (1 of 2) for name
`test.txt` persists `test_rx.txt` with content bytes `Hello`. -/
theorem C1_roundtrip_chunked_transfer :
    (∀ (P : List Nat), (∀ x ∈ P, x < 256) →
      ∀ S : Nat, (S = 1 ∨ S = 7 ∨ S = 40000) →
        b64decode (String.join (sendChunks (b64encode P) S)) = some P ∧
        (P ≠ [] → ∀ fname : String,
          (deliverPending fname (((sendChunks (b64encode P) S).length : Nat) : Int)
              (fun i => (sendChunks (b64encode P) S).getD i "")
              emptyAsm (List.range (sendChunks (b64encode P) S).length)).2 =
            List.replicate ((sendChunks (b64encode P) S).length - 1)
                FragResult.pending ++
              [FragResult.completed (b64encode P)] ∧
          (deliverPending fname (((sendChunks (b64encode P) S).length : Nat) : Int)
              (fun i => (sendChunks (b64encode P) S).getD i "")
              emptyAsm (List.range (sendChunks (b64encode P) S).length)).1 fname =
            none)) ∧
    b64encode [72, 101, 108, 108, 111] = "SGVsbG8=" ∧
    sendChunks "SGVsbG8=" 4 = ["SGVs", "bG8="] ∧
    (addChunk (addChunk emptyAsm "test.txt" 0 2 "SGVs").1 "test.txt" 1 2 "bG8=").2 =
      [FileEvent.gotChunk "test.txt" 1 2,
       FileEvent.wroteFile "test_rx.txt" [72, 101, 108, 108, 111]] ∧
    (addChunk (addChunk emptyAsm "test.txt" 0 2 "SGVs").1 "test.txt" 1 2 "bG8=").1
      "test.txt" = none := by
  refine ⟨?_, by decide, by decide, by decide, by decide⟩
  intro P hP S hS
  have hS1 : 1 ≤ S := by rcases hS with h | h | h <;> omega
  have hjoin : String.join (sendChunks (b64encode P) S) = b64encode P :=
    sendChunks_join (b64encode P) S hS1
  refine ⟨by rw [hjoin]; exact b64decode_b64encode P hP, ?_⟩
  intro hPne fname
  set chunks := sendChunks (b64encode P) S with hchunks
  have hlen1 : 1 ≤ chunks.length := sendChunks_length_pos P S hPne hS1
  have hspec := deliverPending_spec fname chunks.length
    (fun i => chunks.getD i "") (List.range chunks.length) [] emptyAsm
    (by simp) (by
      intro hc
      rw [List.range_eq_nil] at hc
      omega)
    (by rfl)
  have hpayload : String.join ((List.range chunks.length).map
      (fun i => chunks.getD i "")) = b64encode P := by
    rw [map_getD_range, hchunks, hjoin]
  rw [List.length_range] at hspec
  refine ⟨?_, hspec.2⟩
  rw [hspec.1, hpayload]

/-- Witness for C1 at `P = b"Hello"`, `S = 7`, `fname = "f.bin"`. -/
theorem C1_witness :
    (∀ x ∈ [72, 101, 108, 108, 111], x < 256) ∧
    b64decode (String.join (sendChunks (b64encode [72, 101, 108, 108, 111]) 7)) =
      some [72, 101, 108, 108, 111] :=
  ⟨by decide,
   ((C1_roundtrip_chunked_transfer.1 [72, 101, 108, 108, 111] (by decide) 7
      (by decide)).1)⟩

/-- C2. For every `total ≥ 1`, every fragment-content assignment, and
every permutation of `0..total-1`, delivering the fragments for one fixed
key `(src, seq)` in the permuted order via `add_frag` returns nothing for
the first `total - 1` deliveries and, on the last, returns the in-order
concatenation and removes the key. -/
theorem C2_order_independence (src : String) (seq : Int) (total : Nat)
    (f : Nat → String) (perm : List Nat) (st : ReasmState)
    (htot : 1 ≤ total) (hperm : perm.Perm (List.range total))
    (habsent : st (src, seq) = none) :
    (deliverFrags src seq (total : Int) f st perm).2 =
      List.replicate (total - 1) FragResult.pending ++
        [FragResult.completed (String.join ((List.range total).map f))] ∧
    (deliverFrags src seq (total : Int) f st perm).1 (src, seq) = none := by
  have hlen : perm.length = total := by
    have := hperm.length_eq
    simpa using this
  have hne : perm ≠ [] := by
    intro hc
    subst hc
    simp at hlen
    omega
  have hspec := deliverPending_spec (src, seq) total f perm [] st
    (by simpa using hperm) hne (by rw [habsent]; rfl)
  rw [hlen] at hspec
  exact hspec

/-- Witness for C2: key `("A", 1)`, `total = 2`, contents `"x", "y"`,
delivered in the order `[1, 0]` from the empty reassembler. -/
theorem C2_witness :
    (1 ≤ 2 ∧ List.Perm [1, 0] (List.range 2) ∧ emptyReasm ("A", 1) = none) ∧
    (deliverFrags "A" 1 ((2 : Nat) : Int)
        (fun i => if i = 0 then "x" else "y") emptyReasm [1, 0]).2 =
      List.replicate 1 FragResult.pending ++ [FragResult.completed "xy"] :=
  ⟨⟨by omega, by decide, rfl⟩, by
    have h := (C2_order_independence "A" 1 2
      (fun i => if i = 0 then "x" else "y") [1, 0] emptyReasm
      (by omega) (by decide) rfl).1
    rw [h]
    rfl⟩

/-- C3 counterexample. A single wire-permitted `add_frag` delivery with
`idx = 5, tot = 2` reaches a state whose pending entry stores chunk index 5
with total 2 — the stored chunk indices are not a subset of `[0, total)`. -/
theorem C3_counterexample :
    (addFrag emptyReasm "A" 1 5 2 "x").1 ("A", 1) =
      some ⟨2, [((5 : Int), "x")]⟩ ∧
    ¬((5 : Int) < (2 : Int)) := by
  constructor
  · decide
  · decide

/-- C3 amended. For states reachable by well-formed deliveries
(`0 ≤ idx < tot`, `tot` matching any pending entry's total): every pending
entry's chunk indices lie in `[0, total)` (without duplicates) and its chunk
count is strictly below its total; a further well-formed delivery never
raises `KeyError`, completes exactly when the updated chunk count equals the
total, and on completion removes the key and emits the concatenation of the
chunks at indices `0..total-1` — never a partial payload. -/
theorem C3_wf_invariant_and_completion (st : ReasmState) (hre : WFReach st) :
    ReasmInv st ∧
    ∀ (src : String) (seq idx tot : Int) (chunk : String),
      0 ≤ idx → idx < tot → (∀ e, st (src, seq) = some e → tot = e.tot) →
      ((addFrag st src seq idx tot chunk).2 ≠ FragResult.keyError) ∧
      ((∃ p, (addFrag st src seq idx tot chunk).2 = FragResult.completed p) ↔
        ((insertedChunks st src seq idx tot chunk).length : Int) = tot) ∧
      (∀ p, (addFrag st src seq idx tot chunk).2 = FragResult.completed p →
        (addFrag st src seq idx tot chunk).1 (src, seq) = none ∧
        ∃ parts,
          orderedChunks (insertedChunks st src seq idx tot chunk) tot = some parts ∧
          p = String.join parts) := by
  have hInv := wfReach_inv st hre
  refine ⟨hInv, ?_⟩
  intro src seq idx tot chunk h0 h1 hTot
  obtain ⟨hcomp, hpend, _⟩ := addFrag_sound st hInv src seq idx tot chunk h0 h1 hTot
  by_cases hlen : ((insertedChunks st src seq idx tot chunk).length : Int) = tot
  · obtain ⟨parts, hparts, heq⟩ := hcomp hlen
    refine ⟨?_, ?_, ?_⟩
    · rw [heq]
      intro hc
      cases hc
    · exact ⟨fun _ => hlen, fun _ => ⟨String.join parts, by rw [heq]⟩⟩
    · intro p hp
      rw [heq] at hp ⊢
      cases hp
      constructor
      · show Function.update st (src, seq) none (src, seq) = none
        exact Function.update_same _ _ _
      · exact ⟨parts, hparts, rfl⟩
  · have heq := hpend hlen
    refine ⟨?_, ?_, ?_⟩
    · rw [heq]
      intro hc
      cases hc
    · constructor
      · rintro ⟨p, hp⟩
        rw [heq] at hp
        cases hp
      · intro hc
        exact absurd hc hlen
    · intro p hp
      rw [heq] at hp
      cases hp

/-- Witness for C3 at the reachable state holding fragment 0 of 2 for key
`("A", 1)`: a further well-formed delivery cannot raise `KeyError`. -/
theorem C3_witness :
    (addFrag (addFrag emptyReasm "A" 1 0 2 "x").1 "A" 1 1 2 "y").2 ≠
      FragResult.keyError := by
  have hst1 : (addFrag emptyReasm "A" 1 0 2 "x").1 ("A", 1) =
      some ⟨2, [((0 : Int), "x")]⟩ := by decide
  have hre : WFReach (addFrag emptyReasm "A" 1 0 2 "x").1 :=
    WFReach.step emptyReasm "A" 1 0 2 "x" WFReach.empty (by omega) (by omega)
      (fun e he => by cases he)
  exact ((C3_wf_invariant_and_completion _ hre).2 "A" 1 1 2 "y" (by omega) (by omega)
    (fun e he => by rw [hst1] at he; cases he; rfl)).1

/-- C4 counterexample. Two completed transfers of the same transmitted
name `test.txt` with different contents both persist under the same output
name `test_rx.txt`: the second reception clobbers the first, so completions
do not produce distinct artifacts. -/
theorem C4_counterexample :
    (addChunk emptyAsm "test.txt" 0 1 "SGVsbG8=").2 =
      [FileEvent.gotChunk "test.txt" 0 1,
       FileEvent.wroteFile "test_rx.txt" [72, 101, 108, 108, 111]] ∧
    (addChunk (addChunk emptyAsm "test.txt" 0 1 "SGVsbG8=").1
        "test.txt" 0 1 "V29ybGQh").2 =
      [FileEvent.gotChunk "test.txt" 0 1,
       FileEvent.wroteFile "test_rx.txt" [87, 111, 114, 108, 100, 33]] ∧
    [72, 101, 108, 108, 111] ≠ [87, 111, 114, 108, 100, 33] := by
  refine ⟨by decide, by decide, by decide⟩

/-- A `fileWritten` event of the payload router's legacy `FILE:` branch
always carries the fixed receiver-suffixed name derived from the payload's
transmitted filename (the second `":"`-delimited field); no other branch of
`handle_full_payload` emits one. -/
theorem handleFullPayload_fileWritten (asm : AsmState) (payload : String)
    (p1 fname b64 name : String) (bytes : List Nat)
    (hps : pySplit payload ':' 2 = [p1, fname, b64])
    (hmem : LogEvent.fileWritten name bytes ∈ (handleFullPayload asm payload).2) :
    name = stampedName fname := by
  unfold handleFullPayload at hmem
  by_cases h1 : pyStartsWith payload "FILECHUNK:" = true
  · rw [if_pos h1] at hmem
    exfalso
    revert hmem
    generalize pySplit payload ':' 4 = ps
    intro hmem
    match ps with
    | [] => simp at hmem
    | [a] => simp at hmem
    | [a, b] => simp at hmem
    | [a, b, c] => simp at hmem
    | [a, b, c, d] => simp at hmem
    | [a, b, c, d, e] =>
        dsimp only at hmem
        cases hc : pyInt? c with
        | none =>
            rw [hc] at hmem
            simp at hmem
        | some i =>
            rw [hc] at hmem
            cases hd : pyInt? d with
            | none =>
                rw [hd] at hmem
                simp at hmem
            | some t =>
                rw [hd] at hmem
                simp at hmem
    | a :: b :: c :: d :: e :: f :: rest => simp at hmem
  · rw [if_neg h1] at hmem
    by_cases h2 : pyStartsWith payload "FILE:" = true
    · rw [if_pos h2, hps] at hmem
      dsimp only at hmem
      cases hdec : b64decode b64 with
      | none =>
          rw [hdec] at hmem
          simp at hmem
      | some raw =>
          rw [hdec] at hmem
          simp at hmem
          exact hmem.1
    · rw [if_neg h2] at hmem
      simp at hmem

/-- C4 amended. The FILECHUNK assembler and the transceiver's legacy `FILE:`
path always persist under the fixed receiver-suffixed name
`<stem>_rx<suffix>` derived from the transmitted filename alone (so repeated
transfers of the same name reuse one path, overwriting); only the mesh
receiver's `handle_file` derives a collision-free name, which never equals
an existing file's name. -/
theorem C4_output_naming :
    (∀ (asm : AsmState) (fname : String) (idx tot : Int) (chunk : String)
        (name : String) (bytes : List Nat),
      FileEvent.wroteFile name bytes ∈ (addChunk asm fname idx tot chunk).2 →
      name = stampedName fname) ∧
    (∀ (asm : AsmState) (payload p1 fname b64 name : String) (bytes : List Nat),
      pySplit payload ':' 2 = [p1, fname, b64] →
      LogEvent.fileWritten name bytes ∈ (handleFullPayload asm payload).2 →
      name = stampedName fname) ∧
    (∀ (existing : List String) (fname : String),
      uniqueName existing fname ∉ existing) := by
  refine ⟨?_, ?_, ?_⟩
  · intro asm fname idx tot chunk name bytes hmem
    unfold addChunk at hmem
    rcases hpa : pendingAdd asm fname idx tot chunk with ⟨st2, r⟩
    rw [hpa] at hmem
    cases r with
    | pending => simp at hmem
    | keyError => simp at hmem
    | completed full =>
        dsimp only at hmem
        cases hdec : b64decode full with
        | none =>
            rw [hdec] at hmem
            simp at hmem
        | some raw =>
            rw [hdec] at hmem
            dsimp only at hmem
            by_cases htmp : isTmpTextName fname
            · rw [if_pos htmp] at hmem
              simp at hmem
              exact hmem.1
            · rw [if_neg htmp] at hmem
              simp at hmem
              exact hmem.1
  · intro asm payload p1 fname b64 name bytes hps hmem
    exact handleFullPayload_fileWritten asm payload p1 fname b64 name bytes hps hmem
  · exact uniqueName_not_mem

/-- Witness for C4: the completed `Hello` transfer writes under
`stampedName "test.txt"` through the chunked path; the legacy payload
`FILE:test.txt:SGVsbG8=` writes under the same fixed name; and the mesh name
derived against an existing `test.txt` avoids the collision. -/
theorem C4_witness :
    (FileEvent.wroteFile "test_rx.txt" [72, 101, 108, 108, 111] ∈
       (addChunk emptyAsm "test.txt" 0 1 "SGVsbG8=").2 ∧
     pySplit "FILE:test.txt:SGVsbG8=" ':' 2 = ["FILE", "test.txt", "SGVsbG8="] ∧
     LogEvent.fileWritten "test_rx.txt" [72, 101, 108, 108, 111] ∈
       (handleFullPayload emptyAsm "FILE:test.txt:SGVsbG8=").2) ∧
    "test_rx.txt" = stampedName "test.txt" ∧
    "test_rx.txt" = stampedName "test.txt" ∧
    uniqueName ["test.txt"] "test.txt" ∉ ["test.txt"] :=
  ⟨⟨by decide, by decide, by decide⟩,
   C4_output_naming.1 emptyAsm "test.txt" 0 1 "SGVsbG8=" "test_rx.txt"
     [72, 101, 108, 108, 111] (by decide),
   C4_output_naming.2.1 emptyAsm "FILE:test.txt:SGVsbG8=" "FILE" "test.txt" "SGVsbG8="
     "test_rx.txt" [72, 101, 108, 108, 111] (by decide) (by decide),
   C4_output_naming.2.2 ["test.txt"] "test.txt"⟩

/-- C5 counterexample. In the mesh fragmented-text path, a per-chunk
timeout does not behave like a failure sentinel: with `total = 10` and chunk
0 timing out, all 10 chunks are still attempted (and the transfer merely
returns overall failure at the end), instead of aborting immediately after
chunk 0. -/
theorem C5_counterexample :
    (fun j => if j = 0 then MeshEvent.timeout else MeshEvent.completedSentinel) 0 =
      MeshEvent.timeout ∧
    meshRun (fun j => if j = 0 then MeshEvent.timeout else MeshEvent.completedSentinel)
      10 = (false, 10) ∧
    (10 : Nat) ≠ 0 + 1 := by
  refine ⟨rfl, by decide, by decide⟩

/-- C5 amended. In the FILECHUNK outbound session (`send_file` with
`_consume_tx_result`), a chunk whose completion wait times out produces the
same outcome as an explicit failure sentinel: the session writes no further
chunk (exactly the chunks up to and including the failing one are written,
so there is no chunk-level retry) and `send_file` returns overall failure —
identically under the timeout and under the sentinel. -/
theorem C5_timeout_like_failure :
    ∀ (events : Nat → ChunkEvent) (total i : Nat) (r : String),
      i < total → (∀ j < i, events j = ChunkEvent.txDone) →
      events i = ChunkEvent.timeout →
      sendFileRun events total = (false, i + 1) ∧
      sendFileRun (fun j => if j = i then ChunkEvent.txFail r else events j) total =
        (false, i + 1) := by
  intro events total i r hi hok hto
  constructor
  · apply sendFileGo_abort events i total 0 hi
    · intro j hj
      rw [Nat.zero_add, hok j hj]
      rfl
    · rw [Nat.zero_add, hto]
      rfl
  · apply sendFileGo_abort _ i total 0 hi
    · intro j hj
      have : j ≠ i := by omega
      rw [Nat.zero_add]
      simp only [if_neg this]
      rw [hok j hj]
      rfl
    · rw [Nat.zero_add]
      simp only [if_pos rfl]
      rfl

/-- Witness for C5 at `total = 3`, chunk 0 timing out. -/
theorem C5_witness :
    (0 < 3 ∧ (fun j => if j = 0 then ChunkEvent.timeout else ChunkEvent.txDone) 0 =
      ChunkEvent.timeout) ∧
    sendFileRun (fun j => if j = 0 then ChunkEvent.timeout else ChunkEvent.txDone) 3 =
      (false, 1) ∧
    sendFileRun (fun j => if j = 0 then ChunkEvent.txFail "TX FAILED"
      else if j = 0 then ChunkEvent.timeout else ChunkEvent.txDone) 3 = (false, 1) :=
  ⟨⟨by omega, rfl⟩, by
    have h := C5_timeout_like_failure
      (fun j => if j = 0 then ChunkEvent.timeout else ChunkEvent.txDone) 3 0 "TX FAILED"
      (by omega) (by omega) rfl
    exact ⟨h.1, h.2⟩⟩

/-- C6 counterexample. If the chunks that cross the 30 % threshold fail
at the `send_command` write itself, the `continue` skips the backpressure
check: with `total = 10` and chunks 1–4 failing that way, the threshold
holds after chunk 4 (4 > 3), yet a fifth chunk is still attempted before the
transfer aborts. -/
theorem C6_counterexample :
    meshAbort (meshStatsAfter
      (fun j => if j < 4 then MeshEvent.cmdWriteFailed else MeshEvent.completedSentinel)
      4).failed 10 = true ∧
    meshRun (fun j => if j < 4 then MeshEvent.cmdWriteFailed
      else MeshEvent.completedSentinel) 10 = (false, 5) ∧
    ¬((5 : Nat) ≤ 4) := by
  refine ⟨by decide, by decide, by decide⟩

/-- C6 amended. Whenever the failed-chunk count exceeds 30 % of the
total right after a chunk whose outcome was observed through the sentinel
wait (completion, failure sentinel, or timeout — not a `send_command` write
failure, whose `continue` skips the check), the session returns failure
without attempting any chunk beyond that one; in particular, with
`total = 10` and failure sentinels on chunks 1–4, exactly chunks 1–4 are
attempted and chunks 5–10 never are. -/
theorem C6_backpressure_abort :
    (∀ (events : Nat → MeshEvent) (total i : Nat),
      i < total → events i ≠ MeshEvent.cmdWriteFailed →
      meshAbort (meshStatsAfter events (i + 1)).failed total = true →
      (meshRun events total).1 = false ∧ (meshRun events total).2 ≤ i + 1) ∧
    meshRun (fun j => if j < 4 then MeshEvent.failedSentinel
      else MeshEvent.completedSentinel) 10 = (false, 4) := by
  constructor
  · intro events total i hi hev habort
    have h := meshGo_abort events total i hi hev habort i 0 (by omega)
    have h0 : meshStatsAfter events 0 = ⟨0, 0⟩ := rfl
    rw [Nat.sub_zero, h0] at h
    exact h
  · decide

/-- Witness for C6 at the failure-sentinel scenario, `i = 3`. -/
theorem C6_witness :
    (3 < 10 ∧
     (fun j => if j < 4 then MeshEvent.failedSentinel else MeshEvent.completedSentinel)
       3 ≠ MeshEvent.cmdWriteFailed ∧
     meshAbort (meshStatsAfter
       (fun j => if j < 4 then MeshEvent.failedSentinel else MeshEvent.completedSentinel)
       4).failed 10 = true) ∧
    (meshRun (fun j => if j < 4 then MeshEvent.failedSentinel
       else MeshEvent.completedSentinel) 10).1 = false ∧
    (meshRun (fun j => if j < 4 then MeshEvent.failedSentinel
       else MeshEvent.completedSentinel) 10).2 ≤ 4 :=
  ⟨⟨by omega, by decide, by decide⟩, by
    have h := C6_backpressure_abort.1
      (fun j => if j < 4 then MeshEvent.failedSentinel else MeshEvent.completedSentinel)
      10 3 (by omega) (by decide) (by decide)
    exact ⟨h.1, h.2⟩⟩

theorem handleRxLine_msg_short (st : SessionState) (line : String)
    (hmsg : pyStartsWith line "MSG," = true)
    (hlen : (pySplit line ',' 5).length ≠ 6) :
    handleRxLine st line = (st, []) := by
  unfold handleRxLine
  rw [if_pos hmsg]
  revert hlen
  generalize pySplit line ',' 5 = ps
  intro hlen
  match ps, hlen with
  | [], _ => rfl
  | [a], _ => rfl
  | [a, b], _ => rfl
  | [a, b, c], _ => rfl
  | [a, b, c, d], _ => rfl
  | [a, b, c, d, e], _ => rfl
  | [a, b, c, d, e, f], h => exact absurd rfl h
  | a :: b :: c :: d :: e :: f :: g :: rest, _ => rfl

theorem rxScriptHandleLine_msg_short (st : SessionState) (line : String)
    (hmsg : pyStartsWith line "MSG," = true)
    (hlen : (pySplit line ',' 5).length ≠ 6) :
    rxScriptHandleLine st line = (st, [RxEvent.warnBadMsg line]) := by
  unfold rxScriptHandleLine
  rw [if_pos hmsg]
  revert hlen
  generalize pySplit line ',' 5 = ps
  intro hlen
  match ps, hlen with
  | [], _ => rfl
  | [a], _ => rfl
  | [a, b], _ => rfl
  | [a, b, c], _ => rfl
  | [a, b, c, d], _ => rfl
  | [a, b, c, d, e], _ => rfl
  | [a, b, c, d, e, f], h => exact absurd rfl h
  | a :: b :: c :: d :: e :: f :: g :: rest, _ => rfl

theorem handleRxLine_frag_short (st : SessionState) (line : String)
    (hmsg : pyStartsWith line "MSG," = false)
    (hfrag : pyStartsWith line "FRAG," = true)
    (hlen : (pySplit line ',' 7).length ≠ 8) :
    handleRxLine st line = (st, []) := by
  unfold handleRxLine
  rw [if_neg (by simp [hmsg]), if_pos hfrag]
  revert hlen
  generalize pySplit line ',' 7 = ps
  intro hlen
  match ps, hlen with
  | [], _ => rfl
  | [a], _ => rfl
  | [a, b], _ => rfl
  | [a, b, c], _ => rfl
  | [a, b, c, d], _ => rfl
  | [a, b, c, d, e], _ => rfl
  | [a, b, c, d, e, f], _ => rfl
  | [a, b, c, d, e, f, g], _ => rfl
  | [a, b, c, d, e, f, g, i], h => exact absurd rfl h
  | a :: b :: c :: d :: e :: f :: g :: i :: j :: rest, _ => rfl

theorem rxScriptHandleLine_frag_short (st : SessionState) (line : String)
    (hmsg : pyStartsWith line "MSG," = false)
    (hfrag : pyStartsWith line "FRAG," = true)
    (hlen : (pySplit line ',' 7).length ≠ 8) :
    rxScriptHandleLine st line = (st, [RxEvent.warnBadFrag line]) := by
  unfold rxScriptHandleLine
  rw [if_neg (by simp [hmsg]), if_pos hfrag]
  revert hlen
  generalize pySplit line ',' 7 = ps
  intro hlen
  match ps, hlen with
  | [], _ => rfl
  | [a], _ => rfl
  | [a, b], _ => rfl
  | [a, b, c], _ => rfl
  | [a, b, c, d], _ => rfl
  | [a, b, c, d, e], _ => rfl
  | [a, b, c, d, e, f], _ => rfl
  | [a, b, c, d, e, f, g], _ => rfl
  | [a, b, c, d, e, f, g, i], h => exact absurd rfl h
  | a :: b :: c :: d :: e :: f :: g :: i :: j :: rest, _ => rfl

theorem handleRxLine_frag_badints (st : SessionState) (line : String)
    (p1 src seq sIdx sTot rssi dm chunk : String)
    (hmsg : pyStartsWith line "MSG," = false)
    (hfrag : pyStartsWith line "FRAG," = true)
    (hps : pySplit line ',' 7 = [p1, src, seq, sIdx, sTot, rssi, dm, chunk])
    (hbad : pyInt? seq = none ∨ pyInt? sIdx = none ∨ pyInt? sTot = none) :
    handleRxLine st line = (st, [LogEvent.warnBadFragInts line]) := by
  unfold handleRxLine
  rw [if_neg (by simp [hmsg]), if_pos hfrag, hps]
  dsimp only
  rcases hbad with h | h | h
  · rw [h]
  · rw [h]
    cases pyInt? seq <;> rfl
  · rw [h]
    cases pyInt? seq <;> cases pyInt? sIdx <;> rfl

theorem rxScriptHandleLine_frag_badints (st : SessionState) (line : String)
    (p1 src seq sIdx sTot rssi dm chunk : String)
    (hmsg : pyStartsWith line "MSG," = false)
    (hfrag : pyStartsWith line "FRAG," = true)
    (hps : pySplit line ',' 7 = [p1, src, seq, sIdx, sTot, rssi, dm, chunk])
    (hbad : pyInt? seq = none ∨ pyInt? sIdx = none ∨ pyInt? sTot = none) :
    rxScriptHandleLine st line = (st, [RxEvent.warnBadFragInts line]) := by
  unfold rxScriptHandleLine
  rw [if_neg (by simp [hmsg]), if_pos hfrag, hps]
  dsimp only
  rcases hbad with h | h | h
  · rw [h]
  · rw [h]
    cases pyInt? seq <;> rfl
  · rw [h]
    cases pyInt? seq <;> cases pyInt? sIdx <;> rfl

theorem runReader_cons_keep (st : SessionState) (line : String) (ls : List String)
    (evs : List LogEvent) (h : handleRxLine st line = (st, evs)) :
    runReader st (line :: ls) = ((runReader st ls).1, evs ++ (runReader st ls).2) := by
  show ((runReader (handleRxLine st line).1 ls).1,
    (handleRxLine st line).2 ++ (runReader (handleRxLine st line).1 ls).2) = _
  rw [h]

theorem runRxScript_cons_keep (st : SessionState) (line : String) (ls : List String)
    (evs : List RxEvent) (h : rxScriptHandleLine st line = (st, evs)) :
    runRxScript st (line :: ls) =
      ((runRxScript st ls).1, evs ++ (runRxScript st ls).2) := by
  show ((runRxScript (rxScriptHandleLine st line).1 ls).1,
    (rxScriptHandleLine st line).2 ++ (runRxScript (rxScriptHandleLine st line).1 ls).2) = _
  rw [h]

theorem runReader_cons_inert (st : SessionState) (line : String) (ls : List String)
    (h : handleRxLine st line = (st, [])) :
    runReader st (line :: ls) = runReader st ls := by
  rw [runReader_cons_keep st line ls [] h, List.nil_append]

/-- C7 counterexample. The transceiver reader drops the malformed line
`FRAG,a,b` (3 fields instead of 8) without emitting any warning: the event
list of `_handle_rx_line` is empty, contradicting "emits a warning". -/
theorem C7_counterexample :
    (pyStartsWith "FRAG,a,b" "FRAG,") = true ∧
    (pySplit "FRAG,a,b" ',' 7).length = 3 ∧
    (handleRxLine initialSession "FRAG,a,b").2 = ([] : List LogEvent) := by
  refine ⟨by decide, by decide, by decide⟩

/-- C7 amended. Malformed `MSG`/`FRAG` lines — wrong field count after
the tag, or (for `FRAG` lines with the right field count) non-integer
`seq`/`idx`/`tot` — are dropped with the reassembly state unchanged, and the
reader goes on to process the remaining lines; the standalone RX script
warns on every such line, while the transceiver warns only for `FRAG` lines
with non-integer fields and drops wrong-field-count lines silently.  (An
`MSG` line with a non-integer `seq` is not treated as malformed by either
reader: its field is never converted.) -/
theorem C7_malformed_line_handling (st : SessionState) (line : String)
    (ls : List String) :
    (pyStartsWith line "MSG," = true → (pySplit line ',' 5).length ≠ 6 →
      handleRxLine st line = (st, []) ∧
      rxScriptHandleLine st line = (st, [RxEvent.warnBadMsg line]) ∧
      runReader st (line :: ls) = runReader st ls ∧
      runRxScript st (line :: ls) =
        ((runRxScript st ls).1, RxEvent.warnBadMsg line :: (runRxScript st ls).2)) ∧
    (pyStartsWith line "MSG," = false → pyStartsWith line "FRAG," = true →
      (pySplit line ',' 7).length ≠ 8 →
      handleRxLine st line = (st, []) ∧
      rxScriptHandleLine st line = (st, [RxEvent.warnBadFrag line]) ∧
      runReader st (line :: ls) = runReader st ls ∧
      runRxScript st (line :: ls) =
        ((runRxScript st ls).1, RxEvent.warnBadFrag line :: (runRxScript st ls).2)) ∧
    (∀ p1 src seq sIdx sTot rssi dm chunk : String,
      pyStartsWith line "MSG," = false → pyStartsWith line "FRAG," = true →
      pySplit line ',' 7 = [p1, src, seq, sIdx, sTot, rssi, dm, chunk] →
      (pyInt? seq = none ∨ pyInt? sIdx = none ∨ pyInt? sTot = none) →
      handleRxLine st line = (st, [LogEvent.warnBadFragInts line]) ∧
      rxScriptHandleLine st line = (st, [RxEvent.warnBadFragInts line]) ∧
      runReader st (line :: ls) =
        ((runReader st ls).1, LogEvent.warnBadFragInts line :: (runReader st ls).2) ∧
      runRxScript st (line :: ls) =
        ((runRxScript st ls).1,
         RxEvent.warnBadFragInts line :: (runRxScript st ls).2)) := by
  refine ⟨?_, ?_, ?_⟩
  · intro hmsg hlen
    have h1 := handleRxLine_msg_short st line hmsg hlen
    have h2 := rxScriptHandleLine_msg_short st line hmsg hlen
    exact ⟨h1, h2, runReader_cons_inert st line ls h1,
      runRxScript_cons_keep st line ls _ h2⟩
  · intro hmsg hfrag hlen
    have h1 := handleRxLine_frag_short st line hmsg hfrag hlen
    have h2 := rxScriptHandleLine_frag_short st line hmsg hfrag hlen
    exact ⟨h1, h2, runReader_cons_inert st line ls h1,
      runRxScript_cons_keep st line ls _ h2⟩
  · intro p1 src seq sIdx sTot rssi dm chunk hmsg hfrag hps hbad
    have h1 := handleRxLine_frag_badints st line p1 src seq sIdx sTot rssi dm chunk
      hmsg hfrag hps hbad
    have h2 := rxScriptHandleLine_frag_badints st line p1 src seq sIdx sTot rssi dm chunk
      hmsg hfrag hps hbad
    exact ⟨h1, h2, runReader_cons_keep st line ls _ h1,
      runRxScript_cons_keep st line ls _ h2⟩

/-- Witness for C7 at the malformed line `FRAG,a,b` from the initial state. -/
theorem C7_witness :
    (pyStartsWith "FRAG,a,b" "MSG," = false ∧ pyStartsWith "FRAG,a,b" "FRAG," = true ∧
     (pySplit "FRAG,a,b" ',' 7).length ≠ 8) ∧
    handleRxLine initialSession "FRAG,a,b" = (initialSession, []) ∧
    rxScriptHandleLine initialSession "FRAG,a,b" =
      (initialSession, [RxEvent.warnBadFrag "FRAG,a,b"]) :=
  ⟨⟨by decide, by decide, by decide⟩, by
    have h := (C7_malformed_line_handling initialSession "FRAG,a,b" []).2.1
      (by decide) (by decide) (by decide)
    exact ⟨h.1, h.2.1⟩⟩

/-- C8. Whenever a chunk assembly completes and base64-decoding the
concatenated text fails, `add_chunk` emits the decode warning and discards
the assembly: the pending entry is gone and the event list contains no
file write — not even a partial one. -/
theorem C8_decode_failure_discards (asm : AsmState) (fname : String)
    (idx tot : Int) (chunk : String) (full : String)
    (hcomp : (pendingAdd asm fname idx tot chunk).2 = FragResult.completed full)
    (hdec : b64decode full = none) :
    (addChunk asm fname idx tot chunk).1 fname = none ∧
    (addChunk asm fname idx tot chunk).2 =
      [FileEvent.gotChunk fname idx tot, FileEvent.decodeFailed fname] := by
  have hstate := pendingAdd_completed_state asm fname idx tot chunk full hcomp
  have haddc : addChunk asm fname idx tot chunk =
      ((pendingAdd asm fname idx tot chunk).1,
       [FileEvent.gotChunk fname idx tot, FileEvent.decodeFailed fname]) := by
    unfold addChunk
    rcases hpa : pendingAdd asm fname idx tot chunk with ⟨st2, r⟩
    rw [hpa] at hcomp
    cases r with
    | pending => cases hcomp
    | keyError => cases hcomp
    | completed f2 =>
        cases hcomp
        dsimp only
        rw [hdec]
  rw [haddc]
  refine ⟨?_, rfl⟩
  rw [hstate]
  exact Function.update_same fname none asm

/-- Witness for C8: a one-chunk transfer whose base64 text `"abc"` is
invalid (bad padding). -/
theorem C8_witness :
    ((pendingAdd emptyAsm "f.bin" 0 1 "abc").2 = FragResult.completed "abc" ∧
     b64decode "abc" = none) ∧
    (addChunk emptyAsm "f.bin" 0 1 "abc").1 "f.bin" = none ∧
    (addChunk emptyAsm "f.bin" 0 1 "abc").2 =
      [FileEvent.gotChunk "f.bin" 0 1, FileEvent.decodeFailed "f.bin"] :=
  ⟨⟨by decide, by decide⟩,
   C8_decode_failure_discards emptyAsm "f.bin" 0 1 "abc" "abc" (by decide) (by decide)⟩

/-- C9 counterexample. A duplicate of an already-present index that
carries a different `tot` overwrites the completion threshold and can
complete an incomplete set: after fragment 0 of 3 is pending, re-delivering
index 0 with `tot = 1` immediately completes with payload `"b"`. -/
theorem C9_counterexample :
    (addFrag emptyReasm "A" 1 0 3 "a").2 = FragResult.pending ∧
    (addFrag (addFrag emptyReasm "A" 1 0 3 "a").1 "A" 1 0 1 "b").2 =
      FragResult.completed "b" := by
  refine ⟨by decide, by decide⟩

/-- C9 amended. Re-delivering a previously-seen index with the *same*
total overwrites the stored text while leaving the chunk count, the set of
present indices, and the completion threshold unchanged; in particular such
a duplicate never completes an incomplete set.  (A duplicate carrying a
different total overwrites the threshold, which `C9_counterexample` shows
can complete an incomplete set.) -/
theorem C9_duplicate_idempotent (st : ReasmState) (src : String) (seq : Int)
    (e : PEntry) (idx : Int) (chunk : String)
    (hst : st (src, seq) = some e)
    (hdup : idx ∈ dictKeys e.chunks)
    (hincomp : (e.chunks.length : Int) ≠ e.tot) :
    (addFrag st src seq idx e.tot chunk).2 = FragResult.pending ∧
    ∃ e2, (addFrag st src seq idx e.tot chunk).1 (src, seq) = some e2 ∧
      e2.tot = e.tot ∧
      e2.chunks.length = e.chunks.length ∧
      dictKeys e2.chunks = dictKeys e.chunks ∧
      dictLookup e2.chunks idx = some chunk ∧
      (∀ k : Int, k ≠ idx → dictLookup e2.chunks k = dictLookup e.chunks k) := by
  have hgetD : (st (src, seq)).getD ⟨e.tot, []⟩ = e := by rw [hst]; rfl
  have hcond : ¬(((dictInsert ((st (src, seq)).getD ⟨e.tot, []⟩).chunks idx chunk).length :
      Int) = e.tot) := by
    rw [hgetD, dictInsert_length_of_mem e.chunks idx chunk hdup]
    exact hincomp
  have heq : addFrag st src seq idx e.tot chunk =
      (Function.update st (src, seq)
        (some ⟨e.tot, dictInsert ((st (src, seq)).getD ⟨e.tot, []⟩).chunks idx chunk⟩),
       FragResult.pending) :=
    pendingAdd_eq_pending st (src, seq) idx e.tot chunk hcond
  rw [heq]
  refine ⟨rfl, ⟨e.tot, dictInsert e.chunks idx chunk⟩, ?_, rfl, ?_, ?_, ?_, ?_⟩
  · show Function.update st (src, seq) _ (src, seq) = _
    rw [Function.update_same, hgetD]
  · exact dictInsert_length_of_mem e.chunks idx chunk hdup
  · exact dictKeys_insert_of_mem e.chunks idx chunk hdup
  · exact dictLookup_insert_self e.chunks idx chunk
  · intro k hk
    exact dictLookup_insert_ne e.chunks idx chunk k hk

/-- Witness for C9: the pending entry holding fragment 0 of 3; a duplicate
of index 0 with the same total 3 stays pending. -/
theorem C9_witness :
    ((addFrag emptyReasm "A" 1 0 3 "a").1 ("A", 1) =
      some ⟨3, [((0 : Int), "a")]⟩ ∧
     (0 : Int) ∈ dictKeys [((0 : Int), "a")] ∧
     (([((0 : Int), "a")] : List (Int × String)).length : Int) ≠ 3) ∧
    (addFrag (addFrag emptyReasm "A" 1 0 3 "a").1 "A" 1 0 3 "b").2 =
      FragResult.pending :=
  ⟨⟨by decide, by decide, by decide⟩, by
    have h := (C9_duplicate_idempotent (addFrag emptyReasm "A" 1 0 3 "a").1 "A" 1
      ⟨3, [((0 : Int), "a")]⟩ 0 "b" (by decide) (by decide) (by decide)).1
    exact h⟩

/-- C10. The derived statistics of `TransmissionStats` are total and
never divide by zero: `success_rate` is 0 when `total_chunks = 0` and
otherwise satisfies `success_rate * total_chunks = sent_chunks * 100`
(i.e. it is exactly `(sent/total) * 100`); `throughput_bps` is 0 when the
computed duration is 0 and otherwise satisfies
`throughput_bps * duration = total_bytes * 8`; and `duration` is
`now - start_time` while `end_time` is unset and `end_time - start_time`
afterwards. -/
theorem C10_stats_no_div_by_zero (s : TransmissionStats) (now : ℚ) :
    (s.total_chunks = 0 → s.success_rate = 0) ∧
    (s.total_chunks ≠ 0 →
      s.success_rate * (s.total_chunks : ℚ) = (s.sent_chunks : ℚ) * 100) ∧
    (s.duration now = 0 → s.throughput_bps now = 0) ∧
    (s.duration now ≠ 0 →
      s.throughput_bps now * s.duration now = (s.total_bytes : ℚ) * 8) ∧
    (s.end_time = 0 → s.duration now = now - s.start_time) ∧
    (s.end_time ≠ 0 → s.duration now = s.end_time - s.start_time) := by
  refine ⟨?_, ?_, ?_, ?_, ?_, ?_⟩
  · intro h
    unfold TransmissionStats.success_rate
    rw [if_pos h]
  · intro h
    unfold TransmissionStats.success_rate
    rw [if_neg h]
    have hc : ((s.total_chunks : ℚ)) ≠ 0 := by
      exact_mod_cast h
    field_simp
  · intro h
    unfold TransmissionStats.throughput_bps
    rw [if_pos h]
  · intro h
    unfold TransmissionStats.throughput_bps
    rw [if_neg h]
    field_simp
  · intro h
    unfold TransmissionStats.duration
    rw [if_pos h]
  · intro h
    unfold TransmissionStats.duration
    rw [if_neg h]

/-- Witness for C10 at the freshly initialized record (`TransmissionStats()`)
and `now = 5`. -/
theorem C10_witness :
    TransmissionStats.success_rate ⟨0, 0, 0, 0, 0, 0⟩ = 0 ∧
    TransmissionStats.duration ⟨0, 0, 0, 0, 0, 0⟩ 5 = 5 - 0 :=
  ⟨(C10_stats_no_div_by_zero ⟨0, 0, 0, 0, 0, 0⟩ 5).1 rfl,
   (C10_stats_no_div_by_zero ⟨0, 0, 0, 0, 0, 0⟩ 5).2.2.2.2.1 rfl⟩

end LoRaFS
